import Mathlib

/-!
Verification of the mind-map graph and analysis engine of the Ai-Thought-Map
application.

The development shallowly embeds the TypeScript sources:
 * `src/types/mindmap.ts`   — the `MindMap` / `MindMapBranch` data model;
 * `src/services/graph.ts`  — `MindMapGraph`: construction, BFS shortest path,
   DFS all-paths enumeration, distance;
 * `src/services/semantic.ts` — `SemanticAnalyzer`: Jaccard / bigram text
   similarity, similar-concept discovery, connection suggestions;
 * `src/app/components/visualizations/KanbanView.tsx` — `ConsistencyChecker`:
   score and statistics computation.

Modelling conventions:
 * JavaScript numbers are modelled exactly: values that provably stay finite
   are rationals (`ℚ`); computations that can produce `NaN` / `Infinity`
   (divisions, `Math.max` over statistics) use the `JsNum` type below, which
   mirrors the IEEE special values while keeping finite arithmetic exact.
 * A JavaScript `Map` is an insertion-ordered association list whose `set`
   replaces in place; a JavaScript `Set` is an insertion-ordered duplicate-free
   list.  Both are modelled by plain lists with exactly those update rules.
 * `String.prototype.toLowerCase` and `split(/\s+/)` are modelled
   character-wise (ASCII case folding, `Char.isWhitespace` for `\s`), which
   agrees with JavaScript on all ASCII inputs.
-/

namespace MindMapApp

/-- `MindMapBranch` from `src/types/mindmap.ts`. -/
structure MindMapBranch where
  title : String
  subBranches : List String
deriving DecidableEq

/-- `MindMap` from `src/types/mindmap.ts`. -/
structure MindMap where
  centralIdea : String
  branches : List MindMapBranch
deriving DecidableEq

/-! ## JavaScript number model

Exact model of the JavaScript number line restricted to the operations the
analysis code performs: rationals plus `NaN` and the two infinities (no
floating-point rounding; all quantities in the code are small exact values). -/

/-- A JavaScript number: a finite (exact) rational, `NaN`, or ±`Infinity`. -/
inductive JsNum where
  | nan : JsNum
  | inf : JsNum
  | ninf : JsNum
  | num (q : ℚ) : JsNum
deriving DecidableEq

/-- JavaScript addition. -/
def jsAdd : JsNum → JsNum → JsNum
  | .num a, .num b => .num (a + b)
  | .nan, _ => .nan
  | _, .nan => .nan
  | .inf, .ninf => .nan
  | .ninf, .inf => .nan
  | .inf, _ => .inf
  | _, .inf => .inf
  | .ninf, _ => .ninf
  | _, .ninf => .ninf

/-- JavaScript subtraction (only the cases arising here: finite minus
finite/NaN/±∞). -/
def jsSub : JsNum → JsNum → JsNum
  | .num a, .num b => .num (a - b)
  | .nan, _ => .nan
  | _, .nan => .nan
  | .inf, .inf => .nan
  | .ninf, .ninf => .nan
  | .inf, _ => .inf
  | .ninf, _ => .ninf
  | .num _, .inf => .ninf
  | .num _, .ninf => .inf

/-- JavaScript multiplication. -/
def jsMul : JsNum → JsNum → JsNum
  | .num a, .num b => .num (a * b)
  | .nan, _ => .nan
  | _, .nan => .nan
  | .inf, .inf => .inf
  | .inf, .ninf => .ninf
  | .ninf, .inf => .ninf
  | .ninf, .ninf => .inf
  | .inf, .num b => if b = 0 then .nan else if 0 < b then .inf else .ninf
  | .num a, .inf => if a = 0 then .nan else if 0 < a then .inf else .ninf
  | .ninf, .num b => if b = 0 then .nan else if 0 < b then .ninf else .inf
  | .num a, .ninf => if a = 0 then .nan else if 0 < a then .ninf else .inf

/-- JavaScript division: `0/0 = NaN`, `x/0 = ±Infinity` for `x ≠ 0`. -/
def jsDiv : JsNum → JsNum → JsNum
  | .num a, .num b =>
      if b = 0 then (if a = 0 then .nan else if 0 < a then .inf else .ninf)
      else .num (a / b)
  | .nan, _ => .nan
  | _, .nan => .nan
  | .inf, .inf => .nan
  | .inf, .ninf => .nan
  | .ninf, .inf => .nan
  | .ninf, .ninf => .nan
  | .inf, .num b => if 0 ≤ b then .inf else .ninf
  | .ninf, .num b => if 0 ≤ b then .ninf else .inf
  | .num _, .inf => .num 0
  | .num _, .ninf => .num 0

/-- JavaScript `Math.max` over two values: `NaN` if either argument is `NaN`. -/
def jsMax : JsNum → JsNum → JsNum
  | .nan, _ => .nan
  | _, .nan => .nan
  | .inf, _ => .inf
  | _, .inf => .inf
  | .ninf, b => b
  | a, .ninf => a
  | .num a, .num b => .num (max a b)

/-- JavaScript `>` comparison: false whenever an operand is `NaN`. -/
def jsGt : JsNum → JsNum → Bool
  | .nan, _ => false
  | _, .nan => false
  | .inf, .inf => false
  | .inf, _ => true
  | .ninf, _ => false
  | .num _, .inf => false
  | .num _, .ninf => true
  | .num a, .num b => decide (b < a)

/-! ## String helpers (JavaScript primitives used by the analysis code) -/

/-- Character-wise `toLowerCase` (ASCII case folding). -/
def jsToLower (s : String) : String :=
  String.mk (s.data.map Char.toLower)

/-- Worker for `split(/\s+/)`: `acc` holds the (reversed) characters of the
piece currently being read; a maximal whitespace run ends the current piece
and is skipped.  The first argument is fuel for structural recursion; one
unit per character always suffices (each step consumes at least one
character), so `splitWs` below passes `length + 1`. -/
def splitWsAux : Nat → List Char → List Char → List String
  | 0, _, acc => [String.mk acc.reverse]
  | _ + 1, [], acc => [String.mk acc.reverse]
  | fuel + 1, c :: cs, acc =>
    if c.isWhitespace then
      String.mk acc.reverse :: splitWsAux fuel (cs.dropWhile Char.isWhitespace) []
    else
      splitWsAux fuel cs (c :: acc)

/-- JavaScript `s.split(/\s+/)`: pieces between maximal whitespace runs,
with empty leading/trailing pieces exactly as in JavaScript
(`"".split(/\s+/) = [""]`, `" a".split(/\s+/) = ["", "a"]`, …). -/
def splitWs (s : String) : List String :=
  splitWsAux (s.data.length + 1) s.data []

/-! ## SemanticAnalyzer text similarity (`src/services/semantic.ts`) -/

/-- `getNgrams(text, n)`: every length-`n` substring, in order
(`for (let i = 0; i <= text.length - n; i++) ngrams.push(text.substring(i, i+n))`). -/
def getNgrams (text : String) (n : Nat) : List String :=
  (List.range (text.length + 1 - n)).map fun i =>
    String.mk ((text.data.drop i).take n)

/-- `jaccardSimilarity(text1, text2)`: word-set Jaccard index of the
lower-cased whitespace-split word sets, `0` when the union is empty. -/
def jaccardSimilarity (text1 text2 : String) : ℚ :=
  let words1 := (splitWs (jsToLower text1)).toFinset
  let words2 := (splitWs (jsToLower text2)).toFinset
  let inter := words1 ∩ words2
  let union := words1 ∪ words2
  if union.card = 0 then 0 else (inter.card : ℚ) / union.card

/-- `ngramSimilarity(text1, text2, n)`: Jaccard index of the character
`n`-gram sets of the lower-cased texts, `0` when the union is empty. -/
def ngramSimilarity (text1 text2 : String) (n : Nat) : ℚ :=
  let set1 := (getNgrams (jsToLower text1) n).toFinset
  let set2 := (getNgrams (jsToLower text2) n).toFinset
  let inter := set1 ∩ set2
  let union := set1 ∪ set2
  if union.card = 0 then 0 else (inter.card : ℚ) / union.card

/-- `textSimilarity(text1, text2)`: average of the word-level Jaccard
similarity and the character-bigram similarity. -/
def textSimilarity (text1 text2 : String) : ℚ :=
  (jaccardSimilarity text1 text2 + ngramSimilarity text1 text2 2) / 2

/-! ## MindMapGraph (`src/services/graph.ts`) -/

/-- Node kinds: `'central' | 'branch' | 'subbranch'`. -/
inductive NodeType where
  | central : NodeType
  | branch : NodeType
  | subbranch : NodeType
deriving DecidableEq

/-- `GraphNode`: the optional fields `branchIndex` / `subBranchIndex` are
`undefined` (here `none`) on nodes that do not carry them. -/
structure GraphNode where
  id : String
  label : String
  type : NodeType
  branchIndex : Option Nat := none
  subBranchIndex : Option Nat := none
deriving DecidableEq

/-- `GraphEdge` (the keyword `from` is spelled `from_`). -/
structure GraphEdge where
  from_ : String
  to_ : String
  weight : ℚ
deriving DecidableEq

/-- `Path`: `distance = nodes.length - 1` and
`strength = 1 / distance` in JavaScript arithmetic (`Infinity` at distance 0). -/
structure Path where
  nodes : List GraphNode
  distance : Nat
  strength : JsNum
deriving DecidableEq

/-- Decimal digits of `n`, most significant first, as produced by JavaScript
string interpolation of a natural number.  The fuel argument dominates the
number of digits (`n` itself is always enough). -/
def natToCharsAux : Nat → Nat → List Char
  | 0, _ => []
  | fuel + 1, n =>
    if n < 10 then [Nat.digitChar n]
    else natToCharsAux fuel (n / 10) ++ [Nat.digitChar (n % 10)]

/-- JavaScript `${n}` for a natural number: its decimal representation. -/
def natStr (n : Nat) : String :=
  String.mk (natToCharsAux (n + 1) n)

/-- The id `branch-${branchIndex}`. -/
def branchIdStr (branchIndex : Nat) : String :=
  "branch-" ++ natStr branchIndex

/-- The id `branch-${branchIndex}-sub-${subIndex}`. -/
def subIdStr (branchIndex subIndex : Nat) : String :=
  "branch-" ++ natStr branchIndex ++ "-sub-" ++ natStr subIndex

/-- JavaScript `Map.set`: replace in place if the key is present, otherwise
append (insertion order is preserved). -/
def mapSet {α : Type} (m : List (String × α)) (k : String) (v : α) :
    List (String × α) :=
  if m.any (fun p => p.1 = k) then
    m.map fun p => if p.1 = k then (k, v) else p
  else m ++ [(k, v)]

/-- JavaScript `Set.add`: append if absent. -/
def setAdd (s : List String) (v : String) : List String :=
  if v ∈ s then s else s ++ [v]

/-- `this.adjacencyList.get(k)?.add(v)`: update the entry for `k` in place if
present, otherwise do nothing. -/
def adjAdd (m : List (String × List String)) (k v : String) :
    List (String × List String) :=
  m.map fun p => if p.1 = k then (p.1, setAdd p.2 v) else p

/-- The state of a `MindMapGraph` instance: the `nodes` map, the `edges`
array, and the `adjacencyList` map of sets. -/
structure MindMapGraph where
  nodes : List (String × GraphNode)
  edges : List GraphEdge
  adjacencyList : List (String × List String)
deriving DecidableEq

/-- `addEdge(from, to, weight)`: push the edge and register both directions
in the adjacency structure. -/
def addEdge (g : MindMapGraph) (from_ to_ : String) (weight : ℚ) : MindMapGraph :=
  { g with
    edges := g.edges ++ [⟨from_, to_, weight⟩]
    adjacencyList := adjAdd (adjAdd g.adjacencyList from_ to_) to_ from_ }

/-- Body of the inner `branch.subBranches.forEach((subBranch, subIndex) => …)`
loop of `buildGraph`. -/
def addSubBranchStep (branchIndex : Nat) (g : MindMapGraph) (p : Nat × String) :
    MindMapGraph :=
  let subId := subIdStr branchIndex p.1
  let g1 := { g with
    nodes := mapSet g.nodes subId
      ⟨subId, p.2, .subbranch, some branchIndex, some p.1⟩
    adjacencyList := mapSet g.adjacencyList subId [] }
  addEdge g1 (branchIdStr branchIndex) subId 1

/-- Body of the outer `mindMap.branches.forEach((branch, branchIndex) => …)`
loop of `buildGraph`. -/
def addBranchStep (g : MindMapGraph) (p : Nat × MindMapBranch) : MindMapGraph :=
  let branchId := branchIdStr p.1
  let g1 := { g with
    nodes := mapSet g.nodes branchId ⟨branchId, p.2.title, .branch, some p.1, none⟩
    adjacencyList := mapSet g.adjacencyList branchId [] }
  let g2 := addEdge g1 "central" branchId 1
  (p.2.subBranches.enum).foldl (addSubBranchStep p.1) g2

/-- `buildGraph(mindMap)` as run by the constructor: create the central node,
then every branch and sub-branch with its edges. -/
def buildGraph (mindMap : MindMap) : MindMapGraph :=
  let g0 : MindMapGraph :=
    { nodes := mapSet [] "central" ⟨"central", mindMap.centralIdea, .central, none, none⟩
      edges := []
      adjacencyList := mapSet [] "central" [] }
  (mindMap.branches.enum).foldl addBranchStep g0

/-- `this.nodes.has(id)`. -/
def hasNode (g : MindMapGraph) (id : String) : Bool :=
  g.nodes.any fun p => p.1 = id

/-- `this.nodes.get(id)` (used through the non-null assertion on path nodes). -/
def nodeGet (g : MindMapGraph) (id : String) : Option GraphNode :=
  (g.nodes.find? fun p => p.1 = id).map Prod.snd

/-- `this.adjacencyList.get(nodeId) || new Set()`. -/
def adjOf (g : MindMapGraph) (id : String) : List String :=
  match g.adjacencyList.find? fun p => p.1 = id with
  | some p => p.2
  | none => []

/-- Placeholder for the non-null assertion `this.nodes.get(id)!` (never
reached on ids lying on a discovered path). -/
def defaultNode : GraphNode := ⟨"", "", .central, none, none⟩

/-- Package a discovered id sequence as a `Path` exactly as the source does:
`distance = path.length - 1`, `strength = 1 / (path.length - 1)`. -/
def mkPath (g : MindMapGraph) (ids : List String) : Path :=
  { nodes := ids.map fun id => (nodeGet g id).getD defaultNode
    distance := ids.length - 1
    strength := jsDiv (.num 1) (.num ((ids.length : ℚ) - 1)) }

/-- The BFS `while (queue.length > 0)` loop of `findShortestPath`.  Each queue
entry is `{nodeId, path}`; neighbours not yet visited are marked visited and
enqueued.  `fuel` bounds the number of iterations; `findShortestPath` passes
one more than the loop can ever take (see `bfsLoop_fuel_sufficient`). -/
def bfsLoop (g : MindMapGraph) (endId : String) :
    Nat → List (String × List String) → List String → Option (List String)
  | 0, _, _ => none
  | _ + 1, [], _ => none
  | fuel + 1, (nodeId, path) :: rest, visited =>
    if nodeId = endId then some path
    else
      let fresh := (adjOf g nodeId).filter fun nb => nb ∉ visited
      bfsLoop g endId fuel
        (rest ++ fresh.map fun nb => (nb, path ++ [nb]))
        (visited ++ fresh)

/-- `findShortestPath(startId, endId)`. -/
def findShortestPath (g : MindMapGraph) (startId endId : String) : Option Path :=
  if ¬ hasNode g startId ∨ ¬ hasNode g endId then none
  else
    (bfsLoop g endId (g.nodes.length + 1) [(startId, [startId])] [startId]).map
      (mkPath g)

/-- The recursive `dfs(currentId, path, depth)` closure of `findAllPaths`:
depth guard first, then the end test, then recursion into unvisited
neighbours (the mutable visited set behaves exactly as this value-passing
version, since it is restored on backtrack).  `fuel` only serves totality;
the `depth > maxDepth` guard fires first whenever `fuel > maxDepth - depth`. -/
def dfsAux (g : MindMapGraph) (endId : String) (maxDepth : Nat) :
    Nat → String → List String → List String → Nat → List (List String)
  | 0, _, _, _, _ => []
  | fuel + 1, currentId, path, visited, depth =>
    if depth > maxDepth then []
    else if currentId = endId then [path]
    else
      let visited' := visited ++ [currentId]
      (adjOf g currentId).flatMap fun nb =>
        if nb ∈ visited' then []
        else dfsAux g endId maxDepth fuel nb (path ++ [nb]) visited' (depth + 1)

/-- `findAllPaths(startId, endId, maxDepth = 10)`: exhaustive DFS, results
sorted ascending by distance (`.sort((a, b) => a.distance - b.distance)`). -/
def findAllPaths (g : MindMapGraph) (startId endId : String)
    (maxDepth : Nat := 10) : List Path :=
  if ¬ hasNode g startId ∨ ¬ hasNode g endId then []
  else
    ((dfsAux g endId maxDepth (maxDepth + 1) startId [startId] [] 0).map
      (mkPath g)).mergeSort fun a b => a.distance ≤ b.distance

/-- `calculateDistance(nodeA, nodeB)`: shortest-path distance, or the
JavaScript `Infinity` when no path object is returned. -/
def calculateDistance (g : MindMapGraph) (nodeA nodeB : String) : JsNum :=
  match findShortestPath g nodeA nodeB with
  | some path => .num path.distance
  | none => .inf

/-- `getAllNodes()`: the values of the nodes map in insertion order. -/
def getAllNodes (g : MindMapGraph) : List GraphNode :=
  g.nodes.map Prod.snd

/-! ## SemanticAnalyzer concept pipeline (`src/services/semantic.ts`)

The analyzer is modelled in its text-similarity mode (`this.embeddings =
null`), the only mode that exists without the external embedding provider. -/

/-- `'text' | 'embedding'` similarity method tag. -/
inductive SimMethod where
  | text : SimMethod
  | embedding : SimMethod
deriving DecidableEq

/-- `ConceptSimilarity` record. -/
structure ConceptSimilarity where
  concept1 : String
  concept2 : String
  similarity : ℚ
  method : SimMethod
deriving DecidableEq

/-- `SuggestedConnection` record. -/
structure SuggestedConnection where
  from_ : String
  to_ : String
  reason : String
  confidence : ℚ
deriving DecidableEq

/-- `getAllConcepts()`: central idea, then every branch title followed by its
sub-branches, in order. -/
def getAllConcepts (mindMap : MindMap) : List String :=
  mindMap.centralIdea ::
    mindMap.branches.flatMap fun branch => branch.title :: branch.subBranches

/-- The ordered index pairs `i < j` visited by the nested
`for (i) for (j = i + 1)` loops, as the corresponding element pairs. -/
def orderedPairs {α : Type} : List α → List (α × α)
  | [] => []
  | x :: xs => (xs.map fun y => (x, y)) ++ orderedPairs xs

/-- `findSimilarConcepts()` in text mode: keep every pair whose similarity is
strictly between `0.3` and `0.8`, then sort descending by similarity. -/
def findSimilarConcepts (mindMap : MindMap) : List ConceptSimilarity :=
  ((orderedPairs (getAllConcepts mindMap)).filterMap fun p =>
    let similarity := textSimilarity p.1 p.2
    if similarity > 0.3 ∧ similarity < 0.8 then
      some ⟨p.1, p.2, similarity, .text⟩
    else none).mergeSort fun a b => b.similarity ≤ a.similarity

/-- `findNodeByConcept(concept)`: first node whose label equals the text. -/
def findNodeByConcept (g : MindMapGraph) (concept : String) : Option GraphNode :=
  (getAllNodes g).find? fun n => n.label = concept

/-- JavaScript `Math.round` (half-up) of a rational. -/
def jsRound (q : ℚ) : ℤ := ⌊q + 1 / 2⌋

/-- Decimal rendering of an integer (for the suggestion template). -/
def intStr (z : ℤ) : String :=
  if z < 0 then "-" ++ natStr z.natAbs else natStr z.natAbs

/-- The template string used by `suggestNewConnections`. -/
def suggestionReason (similarity : ℚ) : String :=
  "These concepts are semantically related (" ++
    intStr (jsRound (similarity * 100)) ++ "% similar) but in different branches"

/-- `suggestNewConnections(similarities)`: resolve the top-10 pairs back to
nodes by label and keep those whose `branchIndex` fields differ
(`node1.branchIndex !== node2.branchIndex`, where the central node's field is
`undefined`); sort descending by confidence. -/
def suggestNewConnections (g : MindMapGraph) (similarities : List ConceptSimilarity) :
    List SuggestedConnection :=
  ((similarities.take 10).filterMap fun sim =>
    match findNodeByConcept g sim.concept1, findNodeByConcept g sim.concept2 with
    | some node1, some node2 =>
      if node1.branchIndex ≠ node2.branchIndex then
        some ⟨sim.concept1, sim.concept2, suggestionReason sim.similarity,
          sim.similarity⟩
      else none
    | _, _ => none).mergeSort fun a b => b.confidence ≤ a.confidence

/-! ## ConsistencyChecker (`KanbanView.tsx`) -/

/-- Issue severities. -/
inductive Severity where
  | high : Severity
  | medium : Severity
  | low : Severity
deriving DecidableEq

/-- Issue kind tags (`'contradiction' | 'redundancy' | 'hierarchy' | 'gap'`). -/
inductive IssueType where
  | contradiction : IssueType
  | redundancy : IssueType
  | hierarchy : IssueType
  | gap : IssueType
deriving DecidableEq

/-- A `ConsistencyIssue` as far as scoring is concerned: `calculateScore`
inspects only the `severity` discriminant of the four issue variants. -/
structure ConsistencyIssue where
  type : IssueType
  severity : Severity
deriving DecidableEq

/-- The `statistics` record of a `ConsistencyReport`. -/
structure Statistics where
  totalNodes : Nat
  branchCount : Nat
  avgBranchDepth : JsNum
  balanceScore : JsNum
deriving DecidableEq

/-- The per-issue deduction of `calculateScore`'s `switch`. -/
def severityPenalty : Severity → ℚ
  | .high => 10
  | .medium => 5
  | .low => 2

/-- `calculateScore(issues, statistics)`: start at 100, subtract per issue,
add 5 if `statistics.balanceScore > 0.8`, clamp with
`Math.max(0, Math.min(100, score))`.  The running score is always finite, so
the clamp is exact rational `max`/`min`. -/
def calculateScore (issues : List ConsistencyIssue) (statistics : Statistics) : ℚ :=
  let score : ℚ := 100
  let score := issues.foldl (fun s issue => s - severityPenalty issue.severity) score
  let score := if jsGt statistics.balanceScore (.num 0.8) then score + 5 else score
  max 0 (min 100 score)

/-- `calculateStatistics()`: mean sub-branch count and the balance score
`max(0, 1 - variance / avg²)`, in JavaScript arithmetic (the divisions are
unguarded, so an empty branch list produces `NaN`). -/
def calculateStatistics (mindMap : MindMap) : Statistics :=
  let branchSizes := mindMap.branches.map fun b => b.subBranches.length
  let totalSubBranches : Nat := branchSizes.foldl (· + ·) 0
  let avgBranchDepth :=
    jsDiv (.num totalSubBranches) (.num mindMap.branches.length)
  let avgSize := avgBranchDepth
  let variance :=
    jsDiv (branchSizes.foldl
      (fun sum size =>
        jsAdd sum (jsMul (jsSub (.num size) avgSize) (jsSub (.num size) avgSize)))
      (.num 0))
      (.num branchSizes.length)
  Statistics.mk
    (getAllNodes (buildGraph mindMap)).length
    mindMap.branches.length
    avgBranchDepth
    (jsMax (.num 0) (jsSub (.num 1) (jsDiv variance (jsMul avgSize avgSize))))

/-- Number of issues of a given severity (used to state the `calculateScore`
deduction rule). -/
def countSeverity (sev : Severity) (issues : List ConsistencyIssue) : Nat :=
  issues.countP fun issue => decide (issue.severity = sev)

/-- The worked example mind map of the specification (§8). -/
def guitarMindMap : MindMap :=
  ⟨"Learn Guitar",
   [⟨"Technique", ["Finger exercises", "Chord transitions"]⟩,
    ⟨"Theory", ["Scales", "Key signatures"]⟩]⟩

/-! ## Closed forms of the constructed graph

Derived descriptions of `buildGraph`'s result, proved equal to it in
`buildGraph_eq` below.  They expose the construction as explicit lists. -/

/-- The central node as built by `buildGraph`. -/
def centralNodeOf (m : MindMap) : GraphNode :=
  ⟨"central", m.centralIdea, .central, none, none⟩

/-- The branch node at index `i`. -/
def branchNodeOf (i : Nat) (b : MindMapBranch) : GraphNode :=
  ⟨branchIdStr i, b.title, .branch, some i, none⟩

/-- The sub-branch node at indices `(i, j)`. -/
def subNodeOf (i j : Nat) (s : String) : GraphNode :=
  ⟨subIdStr i j, s, .subbranch, some i, some j⟩

/-- The entries of the nodes map, in insertion order. -/
def nodesSpec (m : MindMap) : List (String × GraphNode) :=
  ("central", centralNodeOf m) ::
    m.branches.enum.flatMap fun p =>
      (branchIdStr p.1, branchNodeOf p.1 p.2) ::
        p.2.subBranches.enum.map fun q => (subIdStr p.1 q.1, subNodeOf p.1 q.1 q.2)

/-- The edges array, in push order. -/
def edgesSpec (m : MindMap) : List GraphEdge :=
  m.branches.enum.flatMap fun p =>
    GraphEdge.mk "central" (branchIdStr p.1) 1 ::
      p.2.subBranches.enum.map fun q =>
        GraphEdge.mk (branchIdStr p.1) (subIdStr p.1 q.1) 1

/-- The adjacency map: the central entry lists all branch ids; a branch entry
lists the central id then its sub-branch ids; a sub-branch entry lists its
branch id. -/
def adjSpec (m : MindMap) : List (String × List String) :=
  ("central", m.branches.enum.map fun p => branchIdStr p.1) ::
    m.branches.enum.flatMap fun p =>
      (branchIdStr p.1,
        "central" :: p.2.subBranches.enum.map fun q => subIdStr p.1 q.1) ::
        p.2.subBranches.enum.map fun q => (subIdStr p.1 q.1, [branchIdStr p.1])

/-! ## Graph positions

The ids generated by `buildGraph` are in bijection with abstract positions in
the three-level tree; path reasoning is done on positions and transported to
id strings through `posId`. -/

/-- A position in the tree: the central node, branch `i`, or sub-branch
`(i, j)`. -/
inductive GPos where
  | central : GPos
  | branch (i : Nat) : GPos
  | sub (i j : Nat) : GPos
deriving DecidableEq

/-- The id string of a position. -/
def posId : GPos → String
  | .central => "central"
  | .branch i => branchIdStr i
  | .sub i j => subIdStr i j

/-- The number of sub-branches of branch `i` (0 when out of range). -/
def sizeAt (m : MindMap) (i : Nat) : Nat :=
  ((m.branches[i]?).map fun b => b.subBranches.length).getD 0

/-- Whether a position exists in the graph built from `m`. -/
def PosOk (m : MindMap) : GPos → Prop
  | .central => True
  | .branch i => i < m.branches.length
  | .sub i j => i < m.branches.length ∧ j < sizeAt m i

instance (m : MindMap) (p : GPos) : Decidable (PosOk m p) := by
  cases p <;> simp only [PosOk] <;> infer_instance

/-- Position-level adjacency: mirrors the adjacency lists of the built
graph. -/
def posAdj (m : MindMap) : GPos → List GPos
  | .central => (List.range m.branches.length).map .branch
  | .branch i => .central :: (List.range (sizeAt m i)).map (.sub i)
  | .sub i _ => [.branch i]

/-- The unique simple path between two positions of the tree. -/
def canonPos : GPos → GPos → List GPos
  | .central, .central => [.central]
  | .central, .branch i' => [.central, .branch i']
  | .central, .sub i' j' => [.central, .branch i', .sub i' j']
  | .branch i, .central => [.branch i, .central]
  | .branch i, .branch i' =>
    if i = i' then [.branch i] else [.branch i, .central, .branch i']
  | .branch i, .sub i' j' =>
    if i = i' then [.branch i, .sub i' j']
    else [.branch i, .central, .branch i', .sub i' j']
  | .sub i j, .central => [.sub i j, .branch i, .central]
  | .sub i j, .branch i' =>
    if i = i' then [.sub i j, .branch i]
    else [.sub i j, .branch i, .central, .branch i']
  | .sub i j, .sub i' j' =>
    if i = i' then
      (if j = j' then [.sub i j] else [.sub i j, .branch i, .sub i' j'])
    else [.sub i j, .branch i, .central, .branch i', .sub i' j']

/-- The id list of the nodes map (and of the adjacency map), in insertion
order. -/
def idListSpec (m : MindMap) : List String :=
  "central" :: m.branches.enum.flatMap fun q =>
    branchIdStr q.1 :: q.2.subBranches.enum.map fun r => subIdStr q.1 r.1

/-! # Theorems -/

/-! ## Text similarity: symmetry and self-similarity (C3) -/

theorem splitWsAux_ne_nil (fuel : Nat) (l acc : List Char) :
    splitWsAux fuel l acc ≠ [] := by
  induction fuel generalizing l acc with
  | zero => simp [splitWsAux]
  | succ fuel ih =>
    cases l with
    | nil => simp [splitWsAux]
    | cons c cs =>
      rw [splitWsAux]
      by_cases h : c.isWhitespace
      · simp [h]
      · simpa [h] using ih cs (c :: acc)

theorem splitWs_ne_nil (s : String) : splitWs s ≠ [] :=
  splitWsAux_ne_nil _ _ _

theorem jaccardSimilarity_comm (x y : String) :
    jaccardSimilarity x y = jaccardSimilarity y x := by
  simp only [jaccardSimilarity]
  rw [Finset.inter_comm, Finset.union_comm]

theorem ngramSimilarity_comm (x y : String) (n : Nat) :
    ngramSimilarity x y n = ngramSimilarity y x n := by
  simp only [ngramSimilarity]
  rw [Finset.inter_comm, Finset.union_comm]

theorem jaccardSimilarity_self (x : String) : jaccardSimilarity x x = 1 := by
  simp only [jaccardSimilarity, Finset.inter_self, Finset.union_self]
  have h : (splitWs (jsToLower x)).toFinset.card ≠ 0 := by
    simp only [ne_eq, Finset.card_eq_zero, List.toFinset_eq_empty_iff]
    exact splitWs_ne_nil _
  rw [if_neg h, div_self (by exact_mod_cast h)]

theorem jsToLower_length (s : String) : (jsToLower s).length = s.length := by
  simp only [jsToLower, String.length, List.length_map]

theorem getNgrams_ne_nil (s : String) (hs : 2 ≤ s.length) :
    getNgrams s 2 ≠ [] := by
  simp only [getNgrams, ne_eq, List.map_eq_nil_iff, List.range_eq_nil]
  omega

theorem ngramSimilarity_self (x : String) (h : 2 ≤ x.length) :
    ngramSimilarity x x 2 = 1 := by
  simp only [ngramSimilarity, Finset.inter_self, Finset.union_self]
  have hne : (getNgrams (jsToLower x) 2).toFinset.card ≠ 0 := by
    simp only [ne_eq, Finset.card_eq_zero, List.toFinset_eq_empty_iff]
    exact getNgrams_ne_nil _ (by rw [jsToLower_length]; exact h)
  rw [if_neg hne, div_self (by exact_mod_cast hne)]

/-- C3, corrected: the claim's symmetry half holds for all strings, but
self-similarity 1 requires at least two characters — not mere non-emptiness —
because a single-character text has an empty bigram set, making
`ngramSimilarity` 0 and `textSimilarity(x,x) = 1/2`. -/
theorem textSimilarity_symm_and_self :
    (∀ x y, textSimilarity x y = textSimilarity y x) ∧
    (∀ x : String, 2 ≤ x.length → textSimilarity x x = 1) := by
  constructor
  · intro x y
    unfold textSimilarity
    rw [jaccardSimilarity_comm, ngramSimilarity_comm]
  · intro x h
    unfold textSimilarity
    rw [jaccardSimilarity_self, ngramSimilarity_self x h]
    norm_num

/-- C3 witness: at `"ab"` the amended self-similarity statement applies. -/
theorem textSimilarity_self_witness :
    2 ≤ ("ab" : String).length ∧ textSimilarity "ab" "ab" = 1 :=
  ⟨by decide, textSimilarity_symm_and_self.2 "ab" (by decide)⟩

/-- C3 counterexample: `"a"` is non-empty yet `textSimilarity("a","a") = 1/2`,
refuting `textSimilarity(x,x) = 1` for every non-empty string. -/
theorem textSimilarity_self_counterexample :
    ("a" : String) ≠ "" ∧ textSimilarity "a" "a" ≠ 1 := by
  refine ⟨by decide, ?_⟩
  have hn : ngramSimilarity "a" "a" 2 = 0 := by
    have hng : getNgrams (jsToLower "a") 2 = [] := by decide
    simp [ngramSimilarity, hng]
  unfold textSimilarity
  rw [jaccardSimilarity_self, hn]
  norm_num

/-! ## Consistency statistics on an empty branch list (C4) -/

/-- C4: with zero branches both divisions of `calculateStatistics` are `0/0`,
so `avgBranchDepth` and `balanceScore` are `NaN`. -/
theorem calculateStatistics_nan_of_no_branches (m : MindMap)
    (h : m.branches = []) :
    (calculateStatistics m).avgBranchDepth = JsNum.nan ∧
    (calculateStatistics m).balanceScore = JsNum.nan := by
  constructor <;>
  · simp only [calculateStatistics, h, List.map_nil, List.foldl_nil,
      List.length_nil, Nat.cast_zero]
    norm_num [jsDiv, jsSub, jsMul, jsMax, jsAdd]

/-- C4 witness: the concrete mind map with no branches. -/
theorem calculateStatistics_nan_witness :
    (MindMap.mk "Empty topic" []).branches = [] ∧
    (calculateStatistics (MindMap.mk "Empty topic" [])).avgBranchDepth = JsNum.nan ∧
    (calculateStatistics (MindMap.mk "Empty topic" [])).balanceScore = JsNum.nan :=
  ⟨rfl, calculateStatistics_nan_of_no_branches (MindMap.mk "Empty topic" []) rfl⟩

/-! ## Score computation (C6) -/

theorem foldl_severityPenalty (issues : List ConsistencyIssue) (s : ℚ) :
    issues.foldl (fun s issue => s - severityPenalty issue.severity) s =
      s - (10 * (countSeverity .high issues : ℚ) +
        5 * (countSeverity .medium issues : ℚ) +
        2 * (countSeverity .low issues : ℚ)) := by
  induction issues generalizing s with
  | nil => simp [countSeverity]
  | cons i t ih =>
    rw [List.foldl_cons, ih]
    rcases hsev : i.severity <;>
      simp [countSeverity, List.countP_cons, hsev, severityPenalty] <;>
      ring

/-- C6: `calculateScore` equals the clamped
`100 − 10·high − 5·medium − 2·low (+5 when balanceScore > 0.8)`, and in
particular always lies in `[0, 100]`. -/
theorem calculateScore_spec (issues : List ConsistencyIssue)
    (statistics : Statistics) :
    calculateScore issues statistics =
      max 0 (min 100
        (100 - 10 * (countSeverity .high issues : ℚ) -
          5 * (countSeverity .medium issues : ℚ) -
          2 * (countSeverity .low issues : ℚ) +
          (if jsGt statistics.balanceScore (.num 0.8) then 5 else 0))) ∧
    0 ≤ calculateScore issues statistics ∧
    calculateScore issues statistics ≤ 100 := by
  refine ⟨?_, ?_, ?_⟩
  · simp only [calculateScore]
    rw [foldl_severityPenalty]
    cases hb : jsGt statistics.balanceScore (.num 0.8) <;>
      simp only [hb, Bool.false_eq_true, if_true, if_false] <;> ring_nf
  · simp only [calculateScore]
    exact le_max_left 0 _
  · simp only [calculateScore]
    exact max_le (by norm_num) (min_le_left 100 _)

/-! ## Graph queries on absent ids (C7) -/

/-- C7: when either id is absent from the nodes map, `findShortestPath`
returns `none`, `findAllPaths` returns `[]` (for every depth bound), and
`calculateDistance` returns `Infinity`; no query throws. -/
theorem queries_on_absent_id (g : MindMapGraph) (a b : String) (d : Nat)
    (h : hasNode g a = false ∨ hasNode g b = false) :
    findShortestPath g a b = none ∧ findAllPaths g a b d = [] ∧
    calculateDistance g a b = JsNum.inf := by
  refine ⟨?_, ?_, ?_⟩ <;> rcases h with h | h <;>
    simp [findShortestPath, findAllPaths, calculateDistance, h]

/-- C7 witness: the id `"missing"` is not a node of the example graph. -/
theorem queries_on_absent_id_witness :
    findShortestPath (buildGraph guitarMindMap) "missing" "central" = none ∧
    findAllPaths (buildGraph guitarMindMap) "missing" "central" 10 = [] ∧
    calculateDistance (buildGraph guitarMindMap) "missing" "central" = JsNum.inf :=
  queries_on_absent_id (buildGraph guitarMindMap) "missing" "central" 10
    (Or.inl (by decide))

/-! ## Self-distance (C9) -/

/-- C9: for every id present in the graph, the BFS dequeues the start entry,
sees it equal to the end id, and returns the zero-length path, so
`calculateDistance(n, n) = 0`. -/
theorem calculateDistance_self (g : MindMapGraph) (n : String)
    (h : hasNode g n = true) :
    calculateDistance g n n = JsNum.num 0 := by
  simp [calculateDistance, findShortestPath, h, bfsLoop, mkPath]

/-- C9 witness: the branch node `branch-1` of the example graph. -/
theorem calculateDistance_self_witness :
    hasNode (buildGraph guitarMindMap) "branch-1" = true ∧
    calculateDistance (buildGraph guitarMindMap) "branch-1" "branch-1" =
      JsNum.num 0 :=
  ⟨by decide, calculateDistance_self (buildGraph guitarMindMap) "branch-1"
    (by decide)⟩

/-! ## The worked example (C2) -/

/-- C2 counterexample: the example graph has 6 edges (one per branch and one
per sub-branch), not the 4 the claim states. -/
theorem guitar_edges_counterexample :
    (buildGraph guitarMindMap).edges.length ≠ 4 := by
  decide

/-- C2, corrected: the example graph has 7 nodes and 6 edges;
`calculateDistance("branch-0","branch-1") = 2`, and the shortest path from
`branch-0-sub-0` to `branch-1-sub-1` has 5 nodes, distance 4, strength 0.25. -/
theorem guitar_example_spec :
    (buildGraph guitarMindMap).nodes.length = 7 ∧
    (buildGraph guitarMindMap).edges.length = 6 ∧
    calculateDistance (buildGraph guitarMindMap) "branch-0" "branch-1" =
      JsNum.num 2 ∧
    findShortestPath (buildGraph guitarMindMap) "branch-0-sub-0"
        "branch-1-sub-1" =
      some (mkPath (buildGraph guitarMindMap)
        ["branch-0-sub-0", "branch-0", "central", "branch-1", "branch-1-sub-1"]) ∧
    (mkPath (buildGraph guitarMindMap)
      ["branch-0-sub-0", "branch-0", "central", "branch-1",
        "branch-1-sub-1"]).nodes.length = 5 ∧
    (mkPath (buildGraph guitarMindMap)
      ["branch-0-sub-0", "branch-0", "central", "branch-1",
        "branch-1-sub-1"]).distance = 4 ∧
    (mkPath (buildGraph guitarMindMap)
      ["branch-0-sub-0", "branch-0", "central", "branch-1",
        "branch-1-sub-1"]).strength = JsNum.num 0.25 := by
  refine ⟨by decide, by decide, by decide, by rfl, by decide, by decide, ?_⟩
  simp only [mkPath, List.length_cons, List.length_nil]
  norm_num [jsDiv]

/-! ## Decimal id strings: digits, injectivity, separation -/

theorem digitChar_isDigit {k : Nat} (h : k < 10) :
    (Nat.digitChar k).isDigit = true := by
  interval_cases k <;> decide

theorem digitChar_injOn {k k' : Nat} (h : k < 10) (h' : k' < 10)
    (heq : Nat.digitChar k = Nat.digitChar k') : k = k' := by
  interval_cases k <;> interval_cases k' <;> revert heq <;> decide

theorem natToCharsAux_isDigit :
    ∀ fuel n, ∀ c ∈ natToCharsAux fuel n, c.isDigit = true := by
  intro fuel
  induction fuel with
  | zero => simp [natToCharsAux]
  | succ fuel ih =>
    intro n c hc
    rw [natToCharsAux] at hc
    by_cases h : n < 10
    · rw [if_pos h] at hc
      simp only [List.mem_singleton] at hc
      subst hc
      exact digitChar_isDigit h
    · rw [if_neg h] at hc
      rcases List.mem_append.mp hc with h1 | h2
      · exact ih _ _ h1
      · simp only [List.mem_singleton] at h2
        subst h2
        exact digitChar_isDigit (Nat.mod_lt _ (by norm_num))

theorem natToCharsAux_ne_nil (fuel n : Nat) (h : 1 ≤ fuel) :
    natToCharsAux fuel n ≠ [] := by
  obtain ⟨f, rfl⟩ : ∃ f, fuel = f + 1 := ⟨fuel - 1, by omega⟩
  rw [natToCharsAux]
  by_cases hn : n < 10 <;> simp [hn]

theorem natToCharsAux_fuel_irrel :
    ∀ f₁ f₂ n, n < f₁ → n < f₂ → natToCharsAux f₁ n = natToCharsAux f₂ n := by
  intro f₁
  induction f₁ with
  | zero => omega
  | succ f₁ ih =>
    intro f₂ n h1 h2
    obtain ⟨f, rfl⟩ : ∃ f, f₂ = f + 1 := ⟨f₂ - 1, by omega⟩
    rw [natToCharsAux, natToCharsAux]
    by_cases hn : n < 10
    · rw [if_pos hn, if_pos hn]
    · rw [if_neg hn, if_neg hn]
      have hdiv : n / 10 < n := Nat.div_lt_self (by omega) (by norm_num)
      rw [ih f (n / 10) (by omega) (by omega)]

theorem natToCharsAux_inj :
    ∀ n m, natToCharsAux (n + 1) n = natToCharsAux (m + 1) m → n = m := by
  intro n
  induction n using Nat.strong_induction_on with
  | _ n ih =>
    intro m heq
    rw [natToCharsAux, natToCharsAux] at heq
    by_cases hn : n < 10 <;> by_cases hm : m < 10
    · rw [if_pos hn, if_pos hm] at heq
      simp only [List.cons.injEq, and_true] at heq
      exact digitChar_injOn hn hm heq
    · rw [if_pos hn, if_neg hm] at heq
      have hlen := congrArg List.length heq
      have hpos := List.length_pos.mpr (natToCharsAux_ne_nil m (m / 10) (by omega))
      simp only [List.length_singleton, List.length_append] at hlen
      omega
    · rw [if_neg hn, if_pos hm] at heq
      have hlen := congrArg List.length heq
      have hpos := List.length_pos.mpr (natToCharsAux_ne_nil n (n / 10) (by omega))
      simp only [List.length_singleton, List.length_append] at hlen
      omega
    · rw [if_neg hn, if_neg hm] at heq
      have hrev := congrArg List.reverse heq
      simp only [List.reverse_append, List.reverse_singleton, List.singleton_append,
        List.cons.injEq, List.reverse_inj] at hrev
      obtain ⟨hd, ht⟩ := hrev
      have hdivn : n / 10 < n := Nat.div_lt_self (by omega) (by norm_num)
      have hdivm : m / 10 < m := Nat.div_lt_self (by omega) (by norm_num)
      rw [natToCharsAux_fuel_irrel n (n / 10 + 1) (n / 10) (by omega) (by omega),
        natToCharsAux_fuel_irrel m (m / 10 + 1) (m / 10) (by omega) (by omega)] at ht
      have hdiv := ih (n / 10) hdivn (m / 10) ht
      have hmod := digitChar_injOn (Nat.mod_lt _ (by norm_num))
        (Nat.mod_lt _ (by norm_num)) hd
      omega

theorem natStr_inj {n m : Nat} (h : natStr n = natStr m) : n = m :=
  natToCharsAux_inj n m (congrArg String.data h)

theorem natStr_data_isDigit (n : Nat) :
    ∀ c ∈ (natStr n).data, c.isDigit = true :=
  natToCharsAux_isDigit _ _

theorem branchIdStr_inj {i j : Nat} (h : branchIdStr i = branchIdStr j) :
    i = j := by
  have hd := congrArg String.data h
  simp only [branchIdStr, String.data_append] at hd
  exact natStr_inj (String.ext (List.append_cancel_left hd))

theorem branchIdStr_ne_central (i : Nat) : branchIdStr i ≠ "central" := by
  intro h
  have hd := congrArg String.data h
  simp only [branchIdStr, String.data_append] at hd
  simp at hd

theorem subIdStr_ne_central (i j : Nat) : subIdStr i j ≠ "central" := by
  intro h
  have hd := congrArg String.data h
  simp only [subIdStr, String.data_append, List.append_assoc] at hd
  simp at hd

theorem branchIdStr_ne_subIdStr (i i' j' : Nat) :
    branchIdStr i ≠ subIdStr i' j' := by
  intro h
  have hd := congrArg String.data h
  simp only [branchIdStr, subIdStr, String.data_append, List.append_assoc] at hd
  have hcancel := List.append_cancel_left hd
  have hmem : '-' ∈ (natStr i).data := by
    rw [hcancel]
    simp
  have := natStr_data_isDigit i '-' hmem
  exact absurd this (by decide)

theorem dash_split_inj :
    ∀ (a : List Char), (∀ c ∈ a, c.isDigit = true) →
      ∀ (a' b b' : List Char), (∀ c ∈ a', c.isDigit = true) →
        a ++ '-' :: b = a' ++ '-' :: b' → a = a' ∧ b = b' := by
  intro a
  induction a with
  | nil =>
    intro _ a' b b' hd' heq
    cases a' with
    | nil => simpa using heq
    | cons c cs =>
      exfalso
      simp only [List.nil_append, List.cons_append, List.cons.injEq] at heq
      have : c.isDigit = true := hd' c (by simp)
      rw [← heq.1] at this
      exact absurd this (by decide)
  | cons c cs ih =>
    intro hd a' b b' hd' heq
    cases a' with
    | nil =>
      exfalso
      simp only [List.nil_append, List.cons_append, List.cons.injEq] at heq
      have : c.isDigit = true := hd c (by simp)
      rw [heq.1] at this
      exact absurd this (by decide)
    | cons c' cs' =>
      simp only [List.cons_append, List.cons.injEq] at heq
      obtain ⟨rfl, htail⟩ := heq
      obtain ⟨h1, h2⟩ := ih (fun x hx => hd x (by simp [hx])) cs' b b'
        (fun x hx => hd' x (by simp [hx])) htail
      exact ⟨by rw [h1], h2⟩

theorem subIdStr_inj {i j i' j' : Nat} (h : subIdStr i j = subIdStr i' j') :
    i = i' ∧ j = j' := by
  have hd := congrArg String.data h
  simp only [subIdStr, String.data_append, List.append_assoc] at hd
  have hcancel := List.append_cancel_left hd
  simp only [List.cons_append, List.nil_append] at hcancel
  obtain ⟨h1, h2⟩ := dash_split_inj _ (natStr_data_isDigit i) _ _ _
    (natStr_data_isDigit i') hcancel
  refine ⟨natStr_inj (String.ext h1), ?_⟩
  simp only [List.cons.injEq, true_and] at h2
  exact natStr_inj (String.ext h2)

/-! ## Characterization of `buildGraph` -/

theorem mapSet_fresh {α : Type} (m : List (String × α)) (k : String) (v : α)
    (h : ∀ p ∈ m, p.1 ≠ k) : mapSet m k v = m ++ [(k, v)] := by
  rw [mapSet, if_neg]
  simp only [List.any_eq_true, decide_eq_true_eq, not_exists]
  exact fun p hp => h p hp.1 hp.2

theorem adjAdd_not_mem (m : List (String × List String)) (k v : String)
    (h : ∀ p ∈ m, p.1 ≠ k) : adjAdd m k v = m := by
  induction m with
  | nil => rfl
  | cons p t ih =>
    rw [adjAdd, List.map_cons]
    rw [if_neg (h p (by simp))]
    have := ih fun q hq => h q (by simp [hq])
    rw [adjAdd] at this
    rw [this]

theorem setAdd_not_mem (s : List String) (v : String) (h : v ∉ s) :
    setAdd s v = s ++ [v] := by
  rw [setAdd, if_neg h]

theorem adjAdd_split (A B : List (String × List String)) (k : String)
    (L : List String) (v : String)
    (hA : ∀ p ∈ A, p.1 ≠ k) (hB : ∀ p ∈ B, p.1 ≠ k) :
    adjAdd (A ++ (k, L) :: B) k v = A ++ (k, setAdd L v) :: B := by
  rw [adjAdd, List.map_append, List.map_cons]
  have h1 : List.map (fun p => if p.1 = k then (p.1, setAdd p.2 v) else p) A = A := by
    have := adjAdd_not_mem A k v hA
    rwa [adjAdd] at this
  have h2 : List.map (fun p => if p.1 = k then (p.1, setAdd p.2 v) else p) B = B := by
    have := adjAdd_not_mem B k v hB
    rwa [adjAdd] at this
  rw [h1, h2, if_pos rfl]

theorem subfold_spec (i : Nat) :
    ∀ (l : List (Nat × String)) (g : MindMapGraph)
      (A B : List (String × List String)) (L : List String),
      g.adjacencyList = A ++ (branchIdStr i, L) :: B →
      (∀ p ∈ A, p.1 ≠ branchIdStr i) →
      (∀ p ∈ B, p.1 ≠ branchIdStr i) →
      (∀ q ∈ l, (∀ p ∈ g.nodes, p.1 ≠ subIdStr i q.1) ∧
        (∀ p ∈ A, p.1 ≠ subIdStr i q.1) ∧ (∀ p ∈ B, p.1 ≠ subIdStr i q.1) ∧
        subIdStr i q.1 ∉ L) →
      List.Pairwise (fun q q' => q.1 ≠ q'.1) l →
      l.foldl (addSubBranchStep i) g =
        { nodes := g.nodes ++ l.map fun q => (subIdStr i q.1, subNodeOf i q.1 q.2)
          edges := g.edges ++ l.map fun q =>
            GraphEdge.mk (branchIdStr i) (subIdStr i q.1) 1
          adjacencyList := A ++
            (branchIdStr i, L ++ l.map fun q => subIdStr i q.1) ::
            (B ++ l.map fun q => (subIdStr i q.1, [branchIdStr i])) } := by
  intro l
  induction l with
  | nil =>
    intro g A B L hadj hA hB hfresh hpw
    simp only [List.foldl_nil, List.map_nil, List.append_nil]
    cases g
    simp only [MindMapGraph.mk.injEq, true_and] at hadj ⊢
    exact hadj
  | cons q rest ih =>
    intro g A B L hadj hA hB hfresh hpw
    obtain ⟨hfq, hfrest⟩ := List.forall_mem_cons.mp hfresh
    obtain ⟨hqN, hqA, hqB, hqL⟩ := hfq
    have hbrne : branchIdStr i ≠ subIdStr i q.1 := branchIdStr_ne_subIdStr i i q.1
    -- compute the state after one step
    have hnodes1 : mapSet g.nodes (subIdStr i q.1)
        ⟨subIdStr i q.1, q.2, .subbranch, some i, some q.1⟩ =
        g.nodes ++ [(subIdStr i q.1, subNodeOf i q.1 q.2)] :=
      mapSet_fresh _ _ _ hqN
    have hadj1 : mapSet g.adjacencyList (subIdStr i q.1) [] =
        A ++ (branchIdStr i, L) :: (B ++ [(subIdStr i q.1, [])]) := by
      rw [hadj, mapSet_fresh]
      · simp
      · intro p hp
        rcases List.mem_append.mp hp with h1 | h2
        · exact hqA p h1
        · rcases List.mem_cons.mp h2 with h3 | h4
          · rw [h3]; exact hbrne
          · exact hqB p h4
    have hadj2 : adjAdd (A ++ (branchIdStr i, L) :: (B ++ [(subIdStr i q.1, [])]))
        (branchIdStr i) (subIdStr i q.1) =
        A ++ (branchIdStr i, L ++ [subIdStr i q.1]) :: (B ++ [(subIdStr i q.1, [])]) := by
      rw [adjAdd_split A (B ++ [(subIdStr i q.1, [])]) _ _ _ hA]
      · rw [setAdd_not_mem _ _ hqL]
      · intro p hp
        rcases List.mem_append.mp hp with h1 | h2
        · exact hB p h1
        · simp only [List.mem_singleton] at h2
          rw [h2]
          exact fun hc => hbrne hc.symm
    have hadj3 : adjAdd (A ++ (branchIdStr i, L ++ [subIdStr i q.1]) ::
          (B ++ [(subIdStr i q.1, [])])) (subIdStr i q.1) (branchIdStr i) =
        A ++ (branchIdStr i, L ++ [subIdStr i q.1]) ::
          (B ++ [(subIdStr i q.1, [branchIdStr i])]) := by
      have hsplit := adjAdd_split
        (A ++ (branchIdStr i, L ++ [subIdStr i q.1]) :: B) []
        (subIdStr i q.1) [] (branchIdStr i) ?hA2 (by simp)
      · rw [show (A ++ (branchIdStr i, L ++ [subIdStr i q.1]) :: B) ++
            (subIdStr i q.1, []) :: [] =
            A ++ (branchIdStr i, L ++ [subIdStr i q.1]) ::
              (B ++ [(subIdStr i q.1, [])]) by simp] at hsplit
        rw [hsplit]
        simp [setAdd]
      case hA2 =>
        intro p hp
        rcases List.mem_append.mp hp with h1 | h2
        · exact hqA p h1
        · rcases List.mem_cons.mp h2 with h3 | h4
          · rw [h3]; exact hbrne
          · exact hqB p h4
    have hstep : addSubBranchStep i g q =
        { nodes := g.nodes ++ [(subIdStr i q.1, subNodeOf i q.1 q.2)]
          edges := g.edges ++ [GraphEdge.mk (branchIdStr i) (subIdStr i q.1) 1]
          adjacencyList := A ++ (branchIdStr i, L ++ [subIdStr i q.1]) ::
            (B ++ [(subIdStr i q.1, [branchIdStr i])]) } := by
      simp only [addSubBranchStep, addEdge, hnodes1, hadj1, hadj2, hadj3]
    rw [List.foldl_cons, hstep]
    rw [ih _ A (B ++ [(subIdStr i q.1, [branchIdStr i])]) (L ++ [subIdStr i q.1])
      rfl hA ?hB2 ?hfresh2 hpw.of_cons]
    · simp [subNodeOf]
    case hB2 =>
      intro p hp
      rcases List.mem_append.mp hp with h1 | h2
      · exact hB p h1
      · simp only [List.mem_singleton] at h2
        rw [h2]
        exact fun hc => hbrne hc.symm
    case hfresh2 =>
      intro q' hq'
      obtain ⟨h1, h2, h3, h4⟩ := hfrest q' hq'
      have hne : subIdStr i q.1 ≠ subIdStr i q'.1 := by
        intro hc
        exact (List.rel_of_pairwise_cons hpw hq') (subIdStr_inj hc).2
      refine ⟨?_, h2, ?_, ?_⟩
      · intro p hp
        rcases List.mem_append.mp hp with hp1 | hp2
        · exact h1 p hp1
        · simp only [List.mem_singleton] at hp2
          rw [hp2]
          exact hne
      · intro p hp
        rcases List.mem_append.mp hp with hp1 | hp2
        · exact h3 p hp1
        · simp only [List.mem_singleton] at hp2
          rw [hp2]
          exact hne
      · simp only [List.mem_append, List.mem_singleton, not_or]
        exact ⟨h4, fun hc => hne hc.symm⟩

theorem enumFrom_pairwise_fst {α : Type} :
    ∀ (n : Nat) (l : List α),
      List.Pairwise (fun q q' : Nat × α => q.1 ≠ q'.1) (List.enumFrom n l) := by
  intro n l
  induction l generalizing n with
  | nil => simp
  | cons x xs ih =>
    rw [List.enumFrom]
    refine List.Pairwise.cons ?_ (ih (n + 1))
    intro q hq
    have := List.mem_enumFrom hq
    simp only [ne_eq]
    omega

theorem enum_pairwise_fst {α : Type} (l : List α) :
    List.Pairwise (fun q q' : Nat × α => q.1 ≠ q'.1) l.enum :=
  enumFrom_pairwise_fst 0 l

theorem branchfold_spec :
    ∀ (l : List (Nat × MindMapBranch)) (g : MindMapGraph)
      (CL : List String) (Rest : List (String × List String)),
      g.adjacencyList = ("central", CL) :: Rest →
      (∀ p ∈ Rest, p.1 ≠ "central") →
      (∀ q ∈ l,
        (∀ p ∈ g.nodes, p.1 ≠ branchIdStr q.1) ∧
        (∀ p ∈ Rest, p.1 ≠ branchIdStr q.1) ∧
        branchIdStr q.1 ∉ CL ∧
        (∀ j, (∀ p ∈ g.nodes, p.1 ≠ subIdStr q.1 j) ∧
          (∀ p ∈ Rest, p.1 ≠ subIdStr q.1 j))) →
      List.Pairwise (fun q q' => q.1 ≠ q'.1) l →
      l.foldl addBranchStep g =
        { nodes := g.nodes ++ l.flatMap fun q =>
            (branchIdStr q.1, branchNodeOf q.1 q.2) ::
              q.2.subBranches.enum.map fun r =>
                (subIdStr q.1 r.1, subNodeOf q.1 r.1 r.2)
          edges := g.edges ++ l.flatMap fun q =>
            GraphEdge.mk "central" (branchIdStr q.1) 1 ::
              q.2.subBranches.enum.map fun r =>
                GraphEdge.mk (branchIdStr q.1) (subIdStr q.1 r.1) 1
          adjacencyList := ("central", CL ++ l.map fun q => branchIdStr q.1) ::
            (Rest ++ l.flatMap fun q =>
              (branchIdStr q.1,
                "central" :: q.2.subBranches.enum.map fun r => subIdStr q.1 r.1) ::
                q.2.subBranches.enum.map fun r =>
                  (subIdStr q.1 r.1, [branchIdStr q.1])) } := by
  intro l
  induction l with
  | nil =>
    intro g CL Rest hadj hRest hfresh hpw
    simp only [List.foldl_nil, List.flatMap_nil, List.map_nil, List.append_nil]
    cases g
    simp only [MindMapGraph.mk.injEq, true_and] at hadj ⊢
    exact hadj
  | cons q rest ih =>
    intro g CL Rest hadj hRest hfresh hpw
    obtain ⟨hfq, hfrest⟩ := List.forall_mem_cons.mp hfresh
    obtain ⟨hqN, hqR, hqCL, hqS⟩ := hfq
    have hbc : branchIdStr q.1 ≠ "central" := branchIdStr_ne_central q.1
    have hnodes1 : mapSet g.nodes (branchIdStr q.1)
        ⟨branchIdStr q.1, q.2.title, .branch, some q.1, none⟩ =
        g.nodes ++ [(branchIdStr q.1, branchNodeOf q.1 q.2)] :=
      mapSet_fresh _ _ _ hqN
    have hadjm : mapSet g.adjacencyList (branchIdStr q.1) [] =
        ("central", CL) :: (Rest ++ [(branchIdStr q.1, [])]) := by
      rw [hadj, mapSet_fresh]
      · simp
      · intro p hp
        rcases List.mem_cons.mp hp with h1 | h2
        · rw [h1]; exact fun hc => hbc hc.symm
        · exact hqR p h2
    have hadjc : adjAdd (("central", CL) :: (Rest ++ [(branchIdStr q.1, [])]))
        "central" (branchIdStr q.1) =
        ("central", CL ++ [branchIdStr q.1]) ::
          (Rest ++ [(branchIdStr q.1, [])]) := by
      have hk : ∀ p ∈ Rest ++ [(branchIdStr q.1, [])],
          (p : String × List String).1 ≠ "central" := by
        intro p hp
        rcases List.mem_append.mp hp with h1 | h2
        · exact hRest p h1
        · simp only [List.mem_singleton] at h2
          rw [h2]
          exact hbc
      have := adjAdd_split [] (Rest ++ [(branchIdStr q.1, [])]) "central" CL
        (branchIdStr q.1) (by simp) hk
      simpa [setAdd_not_mem CL (branchIdStr q.1) hqCL] using this
    have hadjb : adjAdd (("central", CL ++ [branchIdStr q.1]) ::
          (Rest ++ [(branchIdStr q.1, [])])) (branchIdStr q.1) "central" =
        ("central", CL ++ [branchIdStr q.1]) ::
          (Rest ++ [(branchIdStr q.1, ["central"])]) := by
      have hk : ∀ p ∈ ("central", CL ++ [branchIdStr q.1]) :: Rest,
          (p : String × List String).1 ≠ branchIdStr q.1 := by
        intro p hp
        rcases List.mem_cons.mp hp with h1 | h2
        · rw [h1]; exact fun hc => hbc hc.symm
        · exact hqR p h2
      have := adjAdd_split (("central", CL ++ [branchIdStr q.1]) :: Rest) []
        (branchIdStr q.1) [] "central" hk (by simp)
      rw [show (("central", CL ++ [branchIdStr q.1]) :: Rest) ++
          (branchIdStr q.1, ([] : List String)) :: [] =
          ("central", CL ++ [branchIdStr q.1]) ::
            (Rest ++ [(branchIdStr q.1, [])]) by simp] at this
      rw [this]
      simp [setAdd]
    have hfr : ∀ r ∈ q.2.subBranches.enum,
        (∀ p ∈ (g.nodes ++ [(branchIdStr q.1, branchNodeOf q.1 q.2)]),
          p.1 ≠ subIdStr q.1 r.1) ∧
        (∀ p ∈ ("central", CL ++ [branchIdStr q.1]) :: Rest,
          p.1 ≠ subIdStr q.1 r.1) ∧
        (∀ p ∈ ([] : List (String × List String)), p.1 ≠ subIdStr q.1 r.1) ∧
        subIdStr q.1 r.1 ∉ (["central"] : List String) := by
      intro r hr
      have hsne : subIdStr q.1 r.1 ≠ "central" := subIdStr_ne_central q.1 r.1
      have hsnb : branchIdStr q.1 ≠ subIdStr q.1 r.1 :=
        branchIdStr_ne_subIdStr q.1 q.1 r.1
      refine ⟨?_, ?_, by simp, by simpa using hsne⟩
      · intro p hp
        rcases List.mem_append.mp hp with h1 | h2
        · exact (hqS r.1).1 p h1
        · simp only [List.mem_singleton] at h2
          rw [h2]
          exact hsnb
      · intro p hp
        rcases List.mem_cons.mp hp with h1 | h2
        · rw [h1]; exact fun hc => hsne hc.symm
        · exact (hqS r.1).2 p h2
    have hsub := subfold_spec q.1 q.2.subBranches.enum
      { nodes := g.nodes ++ [(branchIdStr q.1, branchNodeOf q.1 q.2)]
        edges := g.edges ++ [GraphEdge.mk "central" (branchIdStr q.1) 1]
        adjacencyList := ("central", CL ++ [branchIdStr q.1]) ::
          (Rest ++ [(branchIdStr q.1, ["central"])]) }
      (("central", CL ++ [branchIdStr q.1]) :: Rest) [] ["central"]
      (by simp)
      (by
        intro p hp
        rcases List.mem_cons.mp hp with h1 | h2
        · rw [h1]; exact fun hc => hbc hc.symm
        · exact hqR p h2)
      (by simp) hfr (enum_pairwise_fst _)
    have hstep : addBranchStep g q =
        { nodes := g.nodes ++ ((branchIdStr q.1, branchNodeOf q.1 q.2) ::
            q.2.subBranches.enum.map fun r =>
              (subIdStr q.1 r.1, subNodeOf q.1 r.1 r.2))
          edges := g.edges ++ (GraphEdge.mk "central" (branchIdStr q.1) 1 ::
            q.2.subBranches.enum.map fun r =>
              GraphEdge.mk (branchIdStr q.1) (subIdStr q.1 r.1) 1)
          adjacencyList :=
            ("central", CL ++ [branchIdStr q.1]) ::
              (Rest ++ (branchIdStr q.1,
                "central" :: q.2.subBranches.enum.map fun r => subIdStr q.1 r.1) ::
                q.2.subBranches.enum.map fun r =>
                  (subIdStr q.1 r.1, [branchIdStr q.1])) } := by
      simp only [addBranchStep, addEdge, hnodes1, hadjm, hadjc, hadjb]
      rw [hsub]
      simp
    rw [List.foldl_cons, hstep]
    rw [ih _ (CL ++ [branchIdStr q.1])
      (Rest ++ (branchIdStr q.1,
        "central" :: q.2.subBranches.enum.map fun r => subIdStr q.1 r.1) ::
        q.2.subBranches.enum.map fun r => (subIdStr q.1 r.1, [branchIdStr q.1]))
      rfl ?hR2 ?hf2 hpw.of_cons]
    · simp
    case hR2 =>
      intro p hp
      rcases List.mem_append.mp hp with h1 | h2
      · exact hRest p h1
      · rcases List.mem_cons.mp h2 with h3 | h4
        · rw [h3]; exact hbc
        · simp only [List.mem_map] at h4
          obtain ⟨r, _, hr⟩ := h4
          rw [← hr]
          exact subIdStr_ne_central q.1 r.1
    case hf2 =>
      intro q' hq'
      obtain ⟨h1, h2, h3, h4⟩ := hfrest q' hq'
      have hne : q.1 ≠ q'.1 := List.rel_of_pairwise_cons hpw hq'
      have hbb : branchIdStr q.1 ≠ branchIdStr q'.1 :=
        fun hc => hne (branchIdStr_inj hc)
      have hsb : ∀ r, subIdStr q.1 r ≠ branchIdStr q'.1 :=
        fun r hc => branchIdStr_ne_subIdStr q'.1 q.1 r hc.symm
      have hbs : ∀ j, branchIdStr q.1 ≠ subIdStr q'.1 j :=
        fun j => branchIdStr_ne_subIdStr q.1 q'.1 j
      have hss : ∀ r j, subIdStr q.1 r ≠ subIdStr q'.1 j :=
        fun r j hc => hne (subIdStr_inj hc).1
      have hnew : ∀ p ∈ ((branchIdStr q.1, branchNodeOf q.1 q.2) ::
          q.2.subBranches.enum.map fun r =>
            (subIdStr q.1 r.1, subNodeOf q.1 r.1 r.2)),
          (p : String × GraphNode).1 = branchIdStr q.1 ∨
            ∃ r, p.1 = subIdStr q.1 r := by
        intro p hp
        rcases List.mem_cons.mp hp with h | h
        · left; rw [h]
        · right
          simp only [List.mem_map] at h
          obtain ⟨r, _, hr⟩ := h
          exact ⟨r.1, by rw [← hr]⟩
      have hnewAdj : ∀ p ∈ ((branchIdStr q.1, "central" ::
            q.2.subBranches.enum.map fun r => subIdStr q.1 r.1) ::
            q.2.subBranches.enum.map fun r =>
              (subIdStr q.1 r.1, [branchIdStr q.1])),
          (p : String × List String).1 = branchIdStr q.1 ∨
            ∃ r, p.1 = subIdStr q.1 r := by
        intro p hp
        rcases List.mem_cons.mp hp with h | h
        · left; rw [h]
        · right
          simp only [List.mem_map] at h
          obtain ⟨r, _, hr⟩ := h
          exact ⟨r.1, by rw [← hr]⟩
      refine ⟨?_, ?_, ?_, ?_⟩
      · intro p hp
        rcases List.mem_append.mp hp with hp1 | hp2
        · exact h1 p hp1
        · rcases hnew p hp2 with h | ⟨r, h⟩
          · rw [h]; exact hbb
          · rw [h]; exact hsb r
      · intro p hp
        rcases List.mem_append.mp hp with hp1 | hp2
        · exact h2 p hp1
        · rcases hnewAdj p hp2 with h | ⟨r, h⟩
          · rw [h]; exact hbb
          · rw [h]; exact hsb r
      · simp only [List.mem_append, List.mem_singleton, not_or]
        exact ⟨h3, fun hc => hbb hc.symm⟩
      · intro j
        constructor
        · intro p hp
          rcases List.mem_append.mp hp with hp1 | hp2
          · exact (h4 j).1 p hp1
          · rcases hnew p hp2 with h | ⟨r, h⟩
            · rw [h]; exact hbs j
            · rw [h]; exact hss r j
        · intro p hp
          rcases List.mem_append.mp hp with hp1 | hp2
          · exact (h4 j).2 p hp1
          · rcases hnewAdj p hp2 with h | ⟨r, h⟩
            · rw [h]; exact hbs j
            · rw [h]; exact hss r j

/-- The nodes map, edge array and adjacency map built by `buildGraph` are
exactly the closed forms `nodesSpec`, `edgesSpec`, `adjSpec`. -/
theorem buildGraph_eq (m : MindMap) :
    buildGraph m = ⟨nodesSpec m, edgesSpec m, adjSpec m⟩ := by
  have h0 : buildGraph m = m.branches.enum.foldl addBranchStep
      { nodes := [("central", centralNodeOf m)]
        edges := []
        adjacencyList := [("central", [])] } := rfl
  rw [h0, branchfold_spec m.branches.enum _ [] [] rfl (by simp) ?hf
    (enum_pairwise_fst _)]
  · simp [nodesSpec, edgesSpec, adjSpec]
  case hf =>
    intro q hq
    refine ⟨?_, by simp, by simp, ?_⟩
    · intro p hp
      simp only [List.mem_singleton] at hp
      rw [hp]
      exact fun hc => branchIdStr_ne_central q.1 hc.symm
    · intro j
      refine ⟨?_, by simp⟩
      intro p hp
      simp only [List.mem_singleton] at hp
      rw [hp]
      exact fun hc => subIdStr_ne_central q.1 j hc.symm

/-! ## Node and edge counts (C1) -/

theorem length_flatMap_nodes :
    ∀ (n : Nat) (l : List MindMapBranch),
      ((List.enumFrom n l).flatMap fun q =>
        (branchIdStr q.1, branchNodeOf q.1 q.2) ::
          q.2.subBranches.enum.map fun r =>
            (subIdStr q.1 r.1, subNodeOf q.1 r.1 r.2)).length =
      l.length + (l.map fun b => b.subBranches.length).sum := by
  intro n l
  induction l generalizing n with
  | nil => simp
  | cons b t ih =>
    rw [List.enumFrom, List.flatMap_cons, List.length_append, ih (n + 1)]
    simp
    omega

theorem length_flatMap_edges :
    ∀ (n : Nat) (l : List MindMapBranch),
      ((List.enumFrom n l).flatMap fun q =>
        GraphEdge.mk "central" (branchIdStr q.1) 1 ::
          q.2.subBranches.enum.map fun r =>
            GraphEdge.mk (branchIdStr q.1) (subIdStr q.1 r.1) 1).length =
      l.length + (l.map fun b => b.subBranches.length).sum := by
  intro n l
  induction l generalizing n with
  | nil => simp
  | cons b t ih =>
    rw [List.enumFrom, List.flatMap_cons, List.length_append, ih (n + 1)]
    simp
    omega

/-- C1: a mind map with `B` branches of sub-branch counts `s₁..s_B` builds a
graph with exactly `1 + B + Σ sᵢ` nodes and `B + Σ sᵢ` edges. -/
theorem buildGraph_counts (m : MindMap) :
    (buildGraph m).nodes.length =
      1 + m.branches.length + (m.branches.map fun b => b.subBranches.length).sum ∧
    (buildGraph m).edges.length =
      m.branches.length + (m.branches.map fun b => b.subBranches.length).sum := by
  rw [buildGraph_eq]
  constructor
  · show (nodesSpec m).length = _
    rw [nodesSpec, List.length_cons,
      show m.branches.enum = List.enumFrom 0 m.branches from rfl,
      length_flatMap_nodes]
    omega
  · show (edgesSpec m).length = _
    rw [edgesSpec,
      show m.branches.enum = List.enumFrom 0 m.branches from rfl,
      length_flatMap_edges]

/-! ## Similar-concept discovery (C8) -/

/-- C8: `findSimilarConcepts` retains exactly the ordered concept pairs whose
text similarity is strictly between 0.3 and 0.8 (with the computed similarity
and the `text` method tag), and its output is sorted descending by
similarity. -/
theorem findSimilarConcepts_spec (m : MindMap) :
    (∀ p : ConceptSimilarity, p ∈ findSimilarConcepts m ↔
      ((p.concept1, p.concept2) ∈ orderedPairs (getAllConcepts m) ∧
        p.similarity = textSimilarity p.concept1 p.concept2 ∧
        p.method = SimMethod.text ∧
        0.3 < p.similarity ∧ p.similarity < 0.8)) ∧
    List.Pairwise (fun a b => b.similarity ≤ a.similarity)
      (findSimilarConcepts m) := by
  constructor
  · intro p
    simp only [findSimilarConcepts, List.mem_mergeSort, List.mem_filterMap]
    constructor
    · rintro ⟨pr, hpr, hf⟩
      split_ifs at hf with hc
      · obtain ⟨h1, h2⟩ := hc
        injection hf with hf
        subst hf
        exact ⟨by simpa using hpr, rfl, rfl, h1, h2⟩
    · rintro ⟨hmem, hsim, hmeth, h1, h2⟩
      obtain ⟨c1, c2, sim, meth⟩ := p
      simp only at hsim hmeth h1 h2 hmem
      subst hsim
      subst hmeth
      refine ⟨(c1, c2), hmem, ?_⟩
      rw [if_pos ⟨h1, h2⟩]
  · simp only [findSimilarConcepts]
    refine List.Pairwise.imp (fun h => of_decide_eq_true h)
      (@List.sorted_mergeSort ConceptSimilarity
        (fun a b => decide (b.similarity ≤ a.similarity)) ?_ ?_ _)
    · intro a b c hab hbc
      simp only [decide_eq_true_eq] at hab hbc ⊢
      exact le_trans hbc hab
    · intro a b
      simp only [Bool.or_eq_true, decide_eq_true_eq]
      exact le_total b.similarity a.similarity

theorem textSim_alpha : textSimilarity "alpha beta" "alpha gamma" = 29 / 84 := by
  have hj : jaccardSimilarity "alpha beta" "alpha gamma" = 1 / 3 := by
    have h1 : ((splitWs (jsToLower "alpha beta")).toFinset ∩
        (splitWs (jsToLower "alpha gamma")).toFinset).card = 1 := by decide
    have h2 : ((splitWs (jsToLower "alpha beta")).toFinset ∪
        (splitWs (jsToLower "alpha gamma")).toFinset).card = 3 := by decide
    simp only [jaccardSimilarity, h1, h2]
    norm_num
  have hn : ngramSimilarity "alpha beta" "alpha gamma" 2 = 5 / 14 := by
    have h1 : ((getNgrams (jsToLower "alpha beta") 2).toFinset ∩
        (getNgrams (jsToLower "alpha gamma") 2).toFinset).card = 5 := by decide
    have h2 : ((getNgrams (jsToLower "alpha beta") 2).toFinset ∪
        (getNgrams (jsToLower "alpha gamma") 2).toFinset).card = 14 := by decide
    simp only [ngramSimilarity, h1, h2]
    norm_num
  rw [textSimilarity, hj, hn]
  norm_num

theorem findSimilarConcepts_alpha :
    findSimilarConcepts
        (MindMap.mk "alpha beta" [MindMapBranch.mk "alpha gamma" []]) =
      [ConceptSimilarity.mk "alpha beta" "alpha gamma" (29 / 84)
        SimMethod.text] := by
  have hcond : textSimilarity "alpha beta" "alpha gamma" > 0.3 ∧
      textSimilarity "alpha beta" "alpha gamma" < 0.8 := by
    rw [textSim_alpha]
    constructor <;> norm_num
  have h0 : orderedPairs (getAllConcepts
      (MindMap.mk "alpha beta" [MindMapBranch.mk "alpha gamma" []])) =
      [("alpha beta", "alpha gamma")] := by decide
  simp only [findSimilarConcepts, h0, List.filterMap_cons, List.filterMap_nil]
  rw [if_pos hcond, textSim_alpha]
  simp

/-- C8 witness: on the two-concept mind map the pair is retained with its
computed similarity. -/
theorem findSimilarConcepts_witness :
    ConceptSimilarity.mk "alpha beta" "alpha gamma" (29 / 84) SimMethod.text ∈
      findSimilarConcepts
        (MindMap.mk "alpha beta" [MindMapBranch.mk "alpha gamma" []]) := by
  apply ((findSimilarConcepts_spec
    (MindMap.mk "alpha beta" [MindMapBranch.mk "alpha gamma" []])).1 _).mpr
  refine ⟨by decide, ?_, rfl, ?_, ?_⟩
  · show (29 : ℚ) / 84 = textSimilarity "alpha beta" "alpha gamma"
    rw [textSim_alpha]
  · show (0.3 : ℚ) < 29 / 84
    norm_num
  · show (29 : ℚ) / 84 < 0.8
    norm_num

/-! ## Central-node connection suggestions (C10) -/

theorem buildGraph_node_shape (m : MindMap) (p : String × GraphNode)
    (hp : p ∈ (buildGraph m).nodes) :
    (p.2.type = NodeType.central → p.2.branchIndex = none) ∧
    (p.2.type ≠ NodeType.central → ∃ i, p.2.branchIndex = some i) := by
  rw [buildGraph_eq] at hp
  rcases List.mem_cons.mp hp with h | h
  · rw [h]
    simp [centralNodeOf]
  · rw [List.mem_flatMap] at h
    obtain ⟨q, _, hmem⟩ := h
    rcases List.mem_cons.mp hmem with h1 | h1
    · rw [h1]
      simp [branchNodeOf]
    · rw [List.mem_map] at h1
      obtain ⟨r, _, hr⟩ := h1
      rw [← hr]
      simp [subNodeOf]

theorem getAllNodes_shape (m : MindMap) (n : GraphNode)
    (hn : n ∈ getAllNodes (buildGraph m)) :
    (n.type = NodeType.central → n.branchIndex = none) ∧
    (n.type ≠ NodeType.central → ∃ i, n.branchIndex = some i) := by
  rw [getAllNodes, List.mem_map] at hn
  obtain ⟨p, hp, rfl⟩ := hn
  exact buildGraph_node_shape m p hp

/-- C10: `suggestNewConnections` compares the resolved nodes' `branchIndex`
fields, and the central node carries none; so a top-10 pair resolving to the
central node and to any branch/sub-branch node always passes the
different-branch test and yields a suggestion involving the central idea. -/
theorem suggestNewConnections_central_pair (m : MindMap)
    (sims : List ConceptSimilarity) (sim : ConceptSimilarity)
    (hsim : sim ∈ sims.take 10) (n1 n2 : GraphNode)
    (h1 : findNodeByConcept (buildGraph m) sim.concept1 = some n1)
    (h2 : findNodeByConcept (buildGraph m) sim.concept2 = some n2)
    (hc : n1.type = NodeType.central) (hnc : n2.type ≠ NodeType.central) :
    SuggestedConnection.mk sim.concept1 sim.concept2
      (suggestionReason sim.similarity) sim.similarity ∈
      suggestNewConnections (buildGraph m) sims := by
  have hm1 : n1 ∈ getAllNodes (buildGraph m) :=
    List.mem_of_find?_eq_some h1
  have hm2 : n2 ∈ getAllNodes (buildGraph m) :=
    List.mem_of_find?_eq_some h2
  have hb1 : n1.branchIndex = none := (getAllNodes_shape m n1 hm1).1 hc
  obtain ⟨i, hb2⟩ := (getAllNodes_shape m n2 hm2).2 hnc
  have hne : n1.branchIndex ≠ n2.branchIndex := by
    rw [hb1, hb2]
    simp
  simp only [suggestNewConnections, List.mem_mergeSort, List.mem_filterMap]
  refine ⟨sim, hsim, ?_⟩
  rw [h1, h2]
  simp only [hne, if_pos, ne_eq, not_false_eq_true, if_true]

/-- C10 witness: on the two-concept mind map the single similarity pair
resolves to the central node and the branch node, and the suggestion is
emitted. -/
theorem suggestNewConnections_central_witness :
    SuggestedConnection.mk "alpha beta" "alpha gamma"
      (suggestionReason (29 / 84)) (29 / 84) ∈
      suggestNewConnections
        (buildGraph (MindMap.mk "alpha beta" [MindMapBranch.mk "alpha gamma" []]))
        (findSimilarConcepts
          (MindMap.mk "alpha beta" [MindMapBranch.mk "alpha gamma" []])) := by
  apply suggestNewConnections_central_pair
    (MindMap.mk "alpha beta" [MindMapBranch.mk "alpha gamma" []]) _
    (ConceptSimilarity.mk "alpha beta" "alpha gamma" (29 / 84) SimMethod.text)
    ?_ (GraphNode.mk "central" "alpha beta" NodeType.central none none)
    (GraphNode.mk "branch-0" "alpha gamma" NodeType.branch (some 0) none)
    (by decide) (by decide) rfl (by decide)
  rw [findSimilarConcepts_alpha]
  simp

/-! ## Transfer between id strings and positions -/

theorem posId_inj {p p' : GPos} (h : posId p = posId p') : p = p' := by
  cases p with
  | central =>
    cases p' with
    | central => rfl
    | branch i => exact absurd h.symm (branchIdStr_ne_central i)
    | sub i j => exact absurd h.symm (subIdStr_ne_central i j)
  | branch i =>
    cases p' with
    | central => exact absurd h (branchIdStr_ne_central i)
    | branch i' => rw [branchIdStr_inj h]
    | sub i' j' => exact absurd h (branchIdStr_ne_subIdStr i i' j')
  | sub i j =>
    cases p' with
    | central => exact absurd h (subIdStr_ne_central i j)
    | branch i' => exact absurd h.symm (branchIdStr_ne_subIdStr i' i j)
    | sub i' j' =>
      obtain ⟨h1, h2⟩ := subIdStr_inj h
      rw [h1, h2]

theorem find?_eq_some_of_mem_nodup {α : Type} :
    ∀ (l : List (String × α)) (k : String) (v : α),
      (l.map Prod.fst).Nodup → (k, v) ∈ l →
      l.find? (fun p => p.1 = k) = some (k, v) := by
  intro l
  induction l with
  | nil => intro k v _ hm; simp at hm
  | cons q t ih =>
    intro k v hnd hm
    simp only [List.map_cons, List.nodup_cons] at hnd
    by_cases hk : q.1 = k
    · rw [List.find?_cons_of_pos _ (by simp [hk])]
      rcases List.mem_cons.mp hm with h | h
      · rw [h]
      · exfalso
        have hkmem : k ∈ t.map Prod.fst := List.mem_map.mpr ⟨(k, v), h, rfl⟩
        rw [hk] at hnd
        exact hnd.1 hkmem
    · rw [List.find?_cons_of_neg _ (by simp [hk])]
      rcases List.mem_cons.mp hm with h | h
      · exfalso
        rw [← h] at hk
        exact hk rfl
      · exact ih k v hnd.2 h

theorem nodesSpec_keys (m : MindMap) :
    (nodesSpec m).map Prod.fst = idListSpec m := by
  simp [nodesSpec, idListSpec, List.map_flatMap, Function.comp_def]

theorem adjSpec_keys (m : MindMap) :
    (adjSpec m).map Prod.fst = idListSpec m := by
  simp [adjSpec, idListSpec, List.map_flatMap, Function.comp_def]

theorem idListSpec_nodup (m : MindMap) : (idListSpec m).Nodup := by
  rw [idListSpec, List.nodup_cons]
  constructor
  · intro hmem
    rw [List.mem_flatMap] at hmem
    obtain ⟨q, _, h⟩ := hmem
    rcases List.mem_cons.mp h with h1 | h1
    · exact branchIdStr_ne_central q.1 h1.symm
    · rw [List.mem_map] at h1
      obtain ⟨r, _, hr⟩ := h1
      exact subIdStr_ne_central q.1 r.1 hr
  · rw [List.nodup_flatMap]
    constructor
    · intro q _
      rw [List.nodup_cons]
      constructor
      · intro hmem
        rw [List.mem_map] at hmem
        obtain ⟨r, _, hr⟩ := hmem
        exact branchIdStr_ne_subIdStr q.1 q.1 r.1 hr.symm
      · show List.Pairwise _ _
        rw [List.pairwise_map]
        refine (enum_pairwise_fst _).imp ?_
        intro a b hab hc
        exact hab (subIdStr_inj hc).2
    · refine (enum_pairwise_fst _).imp ?_
      intro a b hab
      intro x hxa hxb
      have habb : branchIdStr a.1 ≠ branchIdStr b.1 :=
        fun hc => hab (branchIdStr_inj hc)
      rcases List.mem_cons.mp hxa with h1 | h1 <;>
        rcases List.mem_cons.mp hxb with h2 | h2
      · rw [h1] at h2; exact habb h2
      · rw [List.mem_map] at h2
        obtain ⟨r, _, hr⟩ := h2
        rw [h1] at hr
        exact branchIdStr_ne_subIdStr a.1 b.1 r.1 hr.symm
      · rw [List.mem_map] at h1
        obtain ⟨r, _, hr⟩ := h1
        rw [h2] at hr
        exact branchIdStr_ne_subIdStr b.1 a.1 r.1 hr.symm
      · rw [List.mem_map] at h1 h2
        obtain ⟨r, _, hr⟩ := h1
        obtain ⟨r', _, hr'⟩ := h2
        rw [← hr] at hr'
        exact hab (subIdStr_inj hr').1.symm

theorem mem_enumFrom_of_lt {α : Type} :
    ∀ (l : List α) (n k : Nat) (h : k < l.length),
      (n + k, l[k]) ∈ List.enumFrom n l := by
  intro l
  induction l with
  | nil => intro n k h; simp at h
  | cons x xs ih =>
    intro n k h
    cases k with
    | zero => simp [List.enumFrom]
    | succ k =>
      rw [List.enumFrom]
      refine List.mem_cons_of_mem _ ?_
      have hk : k < xs.length := by simpa using h
      have := ih (n + 1) k hk
      have harith : n + 1 + k = n + (k + 1) := by omega
      rw [harith] at this
      simpa using this

theorem mem_enum_of_lt {α : Type} (l : List α) (k : Nat) (h : k < l.length) :
    (k, l[k]) ∈ l.enum := by
  have := mem_enumFrom_of_lt l 0 k h
  simpa using this

theorem sizeAt_eq (m : MindMap) {i : Nat} (h : i < m.branches.length) :
    sizeAt m i = (m.branches[i]).subBranches.length := by
  simp [sizeAt, List.getElem?_eq_getElem h]

theorem mem_idListSpec_iff (m : MindMap) (id : String) :
    id ∈ idListSpec m ↔ ∃ p : GPos, PosOk m p ∧ id = posId p := by
  rw [idListSpec]
  constructor
  · intro h
    rcases List.mem_cons.mp h with h1 | h1
    · exact ⟨.central, trivial, h1⟩
    · rw [List.mem_flatMap] at h1
      obtain ⟨q, hq, hmem⟩ := h1
      obtain ⟨i, b⟩ := q
      have hq' := List.mem_enumFrom hq
      simp only [Nat.zero_add, Nat.sub_zero, Nat.zero_le, true_and] at hq'
      obtain ⟨hilt, hb⟩ := hq'
      rcases List.mem_cons.mp hmem with h2 | h2
      · exact ⟨.branch i, hilt, h2⟩
      · rw [List.mem_map] at h2
        obtain ⟨r, hr, hid⟩ := h2
        obtain ⟨j, s⟩ := r
        have hr' := List.mem_enumFrom hr
        simp only [Nat.zero_add, Nat.sub_zero, Nat.zero_le, true_and] at hr'
        refine ⟨.sub i j, ⟨hilt, ?_⟩, hid.symm⟩
        rw [sizeAt_eq m hilt, ← hb]
        exact hr'.1
  · rintro ⟨p, hok, rfl⟩
    cases p with
    | central => simp [posId]
    | branch i =>
      refine List.mem_cons_of_mem _ ?_
      rw [List.mem_flatMap]
      exact ⟨(i, m.branches[i]), mem_enum_of_lt _ _ hok, by simp [posId]⟩
    | sub i j =>
      obtain ⟨hi, hj⟩ := hok
      refine List.mem_cons_of_mem _ ?_
      rw [List.mem_flatMap]
      refine ⟨(i, m.branches[i]), mem_enum_of_lt _ _ hi, ?_⟩
      refine List.mem_cons_of_mem _ ?_
      rw [List.mem_map]
      have hj' : j < (m.branches[i]).subBranches.length := by
        rwa [← sizeAt_eq m hi]
      exact ⟨(j, (m.branches[i]).subBranches[j]), mem_enum_of_lt _ _ hj',
        by simp [posId]⟩

theorem hasNode_iff_pos (m : MindMap) (id : String) :
    hasNode (buildGraph m) id = true ↔ ∃ p, PosOk m p ∧ id = posId p := by
  rw [← mem_idListSpec_iff, ← nodesSpec_keys]
  simp only [hasNode, buildGraph_eq, List.any_eq_true, decide_eq_true_eq,
    List.mem_map]

theorem adjSpec_nodup_keys (m : MindMap) :
    ((adjSpec m).map Prod.fst).Nodup := by
  rw [adjSpec_keys]
  exact idListSpec_nodup m

theorem adjOf_eq_of_find (m : MindMap) (id : String) (L : List String)
    (h : (id, L) ∈ adjSpec m) : adjOf (buildGraph m) id = L := by
  have hfind := find?_eq_some_of_mem_nodup (adjSpec m) id L
    (adjSpec_nodup_keys m) h
  rw [adjOf, buildGraph_eq]
  simp only [hfind]

theorem adjOf_central (m : MindMap) :
    adjOf (buildGraph m) "central" =
      m.branches.enum.map fun p => branchIdStr p.1 := by
  apply adjOf_eq_of_find
  rw [adjSpec]
  exact List.mem_cons_self _ _

theorem adjOf_branch (m : MindMap) (i : Nat) (h : i < m.branches.length) :
    adjOf (buildGraph m) (branchIdStr i) =
      "central" :: (m.branches[i]).subBranches.enum.map fun r =>
        subIdStr i r.1 := by
  apply adjOf_eq_of_find
  rw [adjSpec]
  refine List.mem_cons_of_mem _ ?_
  rw [List.mem_flatMap]
  exact ⟨(i, m.branches[i]), mem_enum_of_lt _ _ h, List.mem_cons_self _ _⟩

theorem adjOf_sub (m : MindMap) (i j : Nat) (hi : i < m.branches.length)
    (hj : j < sizeAt m i) :
    adjOf (buildGraph m) (subIdStr i j) = [branchIdStr i] := by
  apply adjOf_eq_of_find
  rw [adjSpec]
  refine List.mem_cons_of_mem _ ?_
  rw [List.mem_flatMap]
  refine ⟨(i, m.branches[i]), mem_enum_of_lt _ _ hi, ?_⟩
  refine List.mem_cons_of_mem _ ?_
  rw [List.mem_map]
  have hj' : j < (m.branches[i]).subBranches.length := by
    rwa [← sizeAt_eq m hi]
  exact ⟨(j, (m.branches[i]).subBranches[j]), mem_enum_of_lt _ _ hj', rfl⟩

/-- The adjacency of a valid id, transported to positions. -/
theorem adjOf_posId (m : MindMap) (p : GPos) (h : PosOk m p) :
    adjOf (buildGraph m) (posId p) = (posAdj m p).map posId := by
  cases p with
  | central =>
    rw [show posId GPos.central = "central" from rfl, adjOf_central, posAdj,
      List.map_map,
      show (fun p : Nat × MindMapBranch => branchIdStr p.1) =
        branchIdStr ∘ Prod.fst from rfl,
      ← List.map_map, List.enum_map_fst]
    rfl
  | branch i =>
    rw [show posId (GPos.branch i) = branchIdStr i from rfl,
      adjOf_branch m i h, posAdj, List.map_cons, List.map_map,
      show (fun r : Nat × String => subIdStr i r.1) =
        subIdStr i ∘ Prod.fst from rfl,
      ← List.map_map, List.enum_map_fst, sizeAt_eq m h]
    rfl
  | sub i j =>
    obtain ⟨hi, hj⟩ := h
    rw [show posId (GPos.sub i j) = subIdStr i j from rfl,
      adjOf_sub m i j hi hj]
    rfl

theorem adjOf_not_present (m : MindMap) (id : String)
    (h : ¬ ∃ p, PosOk m p ∧ id = posId p) :
    adjOf (buildGraph m) id = [] := by
  rw [adjOf, buildGraph_eq]
  have hfind : (adjSpec m).find? (fun p => p.1 = id) = none := by
    rw [List.find?_eq_none]
    intro x hx
    simp only [decide_eq_true_eq]
    intro hc
    apply h
    rw [← mem_idListSpec_iff, ← adjSpec_keys]
    exact List.mem_map.mpr ⟨x, hx, hc⟩
  simp only [hfind]

theorem posAdj_ok (m : MindMap) {p p' : GPos} (h : PosOk m p)
    (h' : p' ∈ posAdj m p) : PosOk m p' := by
  cases p with
  | central =>
    rw [posAdj, List.mem_map] at h'
    obtain ⟨i, hi, rfl⟩ := h'
    rw [List.mem_range] at hi
    exact hi
  | branch i =>
    rcases List.mem_cons.mp h' with h1 | h1
    · rw [h1]; trivial
    · rw [List.mem_map] at h1
      obtain ⟨j, hj, rfl⟩ := h1
      rw [List.mem_range] at hj
      exact ⟨h, hj⟩
  | sub i j =>
    rcases List.mem_cons.mp h' with h1 | h1
    · rw [h1]; exact h.1
    · simp at h1

theorem posAdj_nodup (m : MindMap) (p : GPos) : (posAdj m p).Nodup := by
  cases p with
  | central =>
    refine List.Nodup.map ?_ (List.nodup_range _)
    intro a b hab
    exact GPos.branch.inj hab
  | branch i =>
    rw [posAdj, List.nodup_cons]
    constructor
    · intro hc
      rw [List.mem_map] at hc
      obtain ⟨j, _, hj⟩ := hc
      exact GPos.noConfusion hj
    · refine List.Nodup.map ?_ (List.nodup_range _)
      intro a b hab
      exact (GPos.sub.inj hab).2
  | sub i j => simp [posAdj]

theorem adjOf_nodup (m : MindMap) (id : String) :
    (adjOf (buildGraph m) id).Nodup := by
  by_cases h : ∃ p, PosOk m p ∧ id = posId p
  · obtain ⟨p, hok, rfl⟩ := h
    rw [adjOf_posId m p hok]
    exact (posAdj_nodup m p).map fun a b hab => posId_inj hab
  · rw [adjOf_not_present m id h]
    exact List.nodup_nil

/-! ## The unique simple path of the tree -/

theorem canonPos_sound (m : MindMap) (a b : GPos) (ha : PosOk m a)
    (hb : PosOk m b) :
    (canonPos a b).head? = some a ∧ (canonPos a b).getLast? = some b ∧
    (canonPos a b).Nodup ∧
    List.Chain' (fun p p' => p' ∈ posAdj m p) (canonPos a b) ∧
    (canonPos a b).length ≤ 5 := by
  cases a <;> cases b <;>
    simp_all only [canonPos, PosOk] <;>
    (try split_ifs) <;>
    simp_all [List.chain'_cons, posAdj, List.mem_map, List.mem_range,
      GPos.branch.injEq, GPos.sub.injEq]

theorem pos_path_unique (m : MindMap) :
    ∀ (l : List GPos) (a b : GPos),
      l.head? = some a → l.getLast? = some b → l.Nodup →
      List.Chain' (fun p p' => p' ∈ posAdj m p) l →
      l = canonPos a b := by
  intro l
  induction l with
  | nil => intro a b h _ _ _; simp at h
  | cons x t ih =>
    intro a b hhead hlast hnodup hchain
    simp only [List.head?_cons, Option.some.injEq] at hhead
    subst hhead
    cases t with
    | nil =>
      simp only [List.getLast?_singleton, Option.some.injEq] at hlast
      subst hlast
      cases x <;> simp [canonPos]
    | cons y t' =>
      have hyadj : y ∈ posAdj m x := (List.chain'_cons.mp hchain).1
      have hchain' : List.Chain' (fun p p' => p' ∈ posAdj m p) (y :: t') :=
        (List.chain'_cons.mp hchain).2
      have hnd' : List.Nodup (y :: t') := (List.nodup_cons.mp hnodup).2
      have hxnot : x ∉ y :: t' := (List.nodup_cons.mp hnodup).1
      have hlast' : (y :: t').getLast? = some b := by
        rw [← hlast, List.getLast?_cons_cons]
      have heq := ih y b rfl hlast' hnd' hchain'
      rw [heq] at hxnot ⊢
      cases x with
      | central =>
        rw [posAdj, List.mem_map] at hyadj
        obtain ⟨i, _, rfl⟩ := hyadj
        cases b with
        | central => simp [canonPos] at hxnot
        | branch i' =>
          by_cases hii : i = i'
          · subst hii
            simp [canonPos]
          · simp [canonPos, hii] at hxnot
        | sub i' j' =>
          by_cases hii : i = i'
          · subst hii
            simp [canonPos]
          · simp [canonPos, hii] at hxnot
      | branch i =>
        rcases List.mem_cons.mp hyadj with h1 | h1
        · subst h1
          cases b with
          | central => simp [canonPos]
          | branch i' =>
            have hii : i ≠ i' := by
              intro hc
              subst hc
              simp [canonPos] at hxnot
            simp [canonPos, hii]
          | sub i' j' =>
            have hii : i ≠ i' := by
              intro hc
              subst hc
              simp [canonPos] at hxnot
            simp [canonPos, hii]
        · rw [List.mem_map] at h1
          obtain ⟨j0, _, rfl⟩ := h1
          cases b with
          | central => simp [canonPos] at hxnot
          | branch i' =>
            by_cases hii : i = i'
            · subst hii
              simp [canonPos] at hxnot
            · simp [canonPos, hii] at hxnot
          | sub i' j' =>
            by_cases hii : i = i'
            · subst hii
              by_cases hjj : j0 = j'
              · subst hjj
                simp [canonPos]
              · simp [canonPos, hjj] at hxnot
            · simp [canonPos, hii] at hxnot
      | sub i j =>
        simp only [posAdj, List.mem_singleton] at hyadj
        subst hyadj
        cases b with
        | central => simp [canonPos]
        | branch i' =>
          by_cases hii : i = i'
          · subst hii
            simp [canonPos]
          · simp [canonPos, hii]
        | sub i' j' =>
          by_cases hii : i = i'
          · subst hii
            have hjj : j ≠ j' := by
              intro hc
              subst hc
              simp [canonPos] at hxnot
            simp [canonPos, hjj]
          · simp [canonPos, hii]

/-! ## DFS enumerates exactly the simple paths -/

theorem getElem?_append_cons {α : Type} (l : List α) (x : α) (rest : List α) :
    (l ++ x :: rest)[l.length]? = some x := by
  rw [List.getElem?_append_right (le_refl _)]
  simp

theorem dfsAux_spec (g : MindMapGraph) (endId : String) (maxDepth : Nat)
    (hadjnd : ∀ x, (adjOf g x).Nodup) :
    ∀ (fuel : Nat) (current : String) (path : List String)
      (visited : List String) (depth : Nat),
      maxDepth + 1 ≤ fuel + depth →
      path ≠ [] → path.getLast? = some current →
      visited = path.dropLast → path.Nodup →
      List.Chain' (fun u v => v ∈ adjOf g u) path →
      depth = path.length - 1 →
      (∀ q, q ∈ dfsAux g endId maxDepth fuel current path visited depth ↔
        ((∃ ext, q = path ++ ext) ∧ q.Nodup ∧
          List.Chain' (fun u v => v ∈ adjOf g u) q ∧
          q.getLast? = some endId ∧ q.length - 1 ≤ maxDepth)) ∧
      (dfsAux g endId maxDepth fuel current path visited depth).Nodup := by
  intro fuel
  induction fuel with
  | zero =>
    intro current path visited depth hfuel hne hlast hvis hnd hch hdep
    have hpos : 0 < path.length := List.length_pos.mpr hne
    have hlen : path.length = depth + 1 := by omega
    constructor
    · intro q
      rw [dfsAux]
      simp only [List.not_mem_nil, false_iff]
      rintro ⟨⟨ext, rfl⟩, _, _, _, hbound⟩
      rw [List.length_append] at hbound
      omega
    · rw [dfsAux]
      exact List.nodup_nil
  | succ fuel ih =>
    intro current path visited depth hfuel hne hlast hvis hnd hch hdep
    have hpos : 0 < path.length := List.length_pos.mpr hne
    have hlen : path.length = depth + 1 := by omega
    rw [dfsAux]
    by_cases hd : depth > maxDepth
    · rw [if_pos hd]
      constructor
      · intro q
        simp only [List.not_mem_nil, false_iff]
        rintro ⟨⟨ext, rfl⟩, _, _, _, hbound⟩
        rw [List.length_append] at hbound
        omega
      · exact List.nodup_nil
    · rw [if_neg hd]
      by_cases hendeq : current = endId
      · rw [if_pos hendeq]
        have hle : path.getLast? = some endId := by rw [hlast, hendeq]
        constructor
        · intro q
          simp only [List.mem_singleton]
          constructor
          · rintro rfl
            exact ⟨⟨[], by simp⟩, hnd, hch, hle, by omega⟩
          · rintro ⟨⟨ext, rfl⟩, hndq, _, hlastq, _⟩
            cases ext with
            | nil => simp
            | cons e es =>
              exfalso
              have hc1 : endId ∈ path := List.mem_of_mem_getLast? hle
              have hc2eq : (e :: es).getLast? = some endId := by
                rw [← List.getLast?_append_of_ne_nil path
                  (show e :: es ≠ [] by simp)]
                exact hlastq
              have hc2 : endId ∈ e :: es := List.mem_of_mem_getLast? hc2eq
              rw [List.nodup_append] at hndq
              exact hndq.2.2 hc1 hc2
        · exact List.nodup_singleton _
      · rw [if_neg hendeq]
        have hvis' : visited ++ [current] = path := by
          rw [hvis]
          have hdg := List.dropLast_append_getLast hne
          rwa [(List.getLast_eq_iff_getLast_eq_some hne).mpr hlast] at hdg
        simp only [hvis']
        have hchild : ∀ nb, nb ∈ adjOf g current → nb ∉ path →
            (∀ q, q ∈ dfsAux g endId maxDepth fuel nb (path ++ [nb]) path
                (depth + 1) ↔
              ((∃ ext, q = (path ++ [nb]) ++ ext) ∧ q.Nodup ∧
                List.Chain' (fun u v => v ∈ adjOf g u) q ∧
                q.getLast? = some endId ∧ q.length - 1 ≤ maxDepth)) ∧
            (dfsAux g endId maxDepth fuel nb (path ++ [nb]) path
              (depth + 1)).Nodup := by
          intro nb hnbadj hnbpath
          refine ih nb (path ++ [nb]) path (depth + 1) (by omega) (by simp)
            (List.getLast?_concat _) (List.dropLast_concat).symm ?_ ?_ ?_
          · rw [List.nodup_append]
            exact ⟨hnd, List.nodup_singleton _,
              List.disjoint_singleton.mpr hnbpath⟩
          · rw [List.chain'_append]
            refine ⟨hch, List.chain'_singleton _, ?_⟩
            intro x hx y hy
            simp only [List.head?_cons, Option.mem_def, Option.some.injEq] at hy
            rw [hlast] at hx
            simp only [Option.mem_def, Option.some.injEq] at hx
            subst hx
            subst hy
            exact hnbadj
          · simp only [List.length_append, List.length_singleton]
            omega
        constructor
        · intro q
          rw [List.mem_flatMap]
          constructor
          · rintro ⟨nb, hnbadj, hq⟩
            split_ifs at hq with hnbvis
            · simp at hq
            · rw [(hchild nb hnbadj hnbvis).1 q] at hq
              obtain ⟨⟨ext, rfl⟩, h2, h3, h4, h5⟩ := hq
              exact ⟨⟨[nb] ++ ext, by simp⟩, h2, h3, h4, h5⟩
          · rintro ⟨⟨ext, rfl⟩, hndq, hchq, hlastq, hbq⟩
            cases ext with
            | nil =>
              exfalso
              rw [List.append_nil] at hlastq
              rw [hlast] at hlastq
              exact hendeq (Option.some.inj hlastq)
            | cons nb ext' =>
              have hnbadj : nb ∈ adjOf g current := by
                rw [List.chain'_append] at hchq
                exact hchq.2.2 current hlast nb rfl
              have hnbpath : nb ∉ path := by
                rw [List.nodup_append] at hndq
                intro hc
                exact hndq.2.2 hc (by simp)
              refine ⟨nb, hnbadj, ?_⟩
              rw [if_neg hnbpath]
              rw [(hchild nb hnbadj hnbpath).1 (path ++ nb :: ext')]
              exact ⟨⟨ext', by simp⟩, hndq, hchq, hlastq, hbq⟩
        · rw [List.nodup_flatMap]
          constructor
          · intro nb hnb
            split_ifs with hv
            · exact List.nodup_nil
            · exact (hchild nb hnb hv).2
          · refine List.Pairwise.imp_of_mem ?_ (hadjnd current)
            intro nb nb' hnb hnb' hne'
            simp only [Function.onFun]
            intro q hq hq'
            by_cases h1 : nb ∈ path
            · rw [if_pos h1] at hq
              simp at hq
            · rw [if_neg h1] at hq
              by_cases h2 : nb' ∈ path
              · rw [if_pos h2] at hq'
                simp at hq'
              · rw [if_neg h2] at hq'
                rw [(hchild nb hnb h1).1 q] at hq
                rw [(hchild nb' hnb' h2).1 q] at hq'
                obtain ⟨⟨ext, heq⟩, _⟩ := hq
                obtain ⟨⟨ext', heq'⟩, _⟩ := hq'
                have e1 : q[path.length]? = some nb := by
                  rw [heq, List.append_assoc, List.singleton_append]
                  exact getElem?_append_cons _ _ _
                have e2 : q[path.length]? = some nb' := by
                  rw [heq', List.append_assoc, List.singleton_append]
                  exact getElem?_append_cons _ _ _
                rw [e1] at e2
                exact hne' (Option.some.inj e2)

/-! ## BFS: soundness and completeness -/

theorem nodup_length_le_of_subset (l l' : List String) (h : l.Nodup)
    (hs : l ⊆ l') : l.length ≤ l'.length := by
  have h1 : l.toFinset.card = l.length := List.toFinset_card_of_nodup h
  have h2 : l.toFinset ⊆ l'.toFinset := by
    intro x hx
    rw [List.mem_toFinset] at hx ⊢
    exact hs hx
  have h3 := Finset.card_le_card h2
  have h4 := l'.toFinset_card_le
  omega

theorem adjOf_subset_idList (m : MindMap) (v nb : String)
    (h : nb ∈ adjOf (buildGraph m) v) : nb ∈ idListSpec m := by
  by_cases hv : ∃ p, PosOk m p ∧ v = posId p
  · obtain ⟨p, hok, rfl⟩ := hv
    rw [adjOf_posId m p hok, List.mem_map] at h
    obtain ⟨p', hp', rfl⟩ := h
    rw [mem_idListSpec_iff]
    exact ⟨p', posAdj_ok m hok hp', rfl⟩
  · rw [adjOf_not_present m v hv] at h
    simp at h

theorem bfsLoop_sound (g : MindMapGraph) (endId a : String) :
    ∀ (fuel : Nat) (queue : List (String × List String))
      (visited : List String) (p : List String),
      (∀ e ∈ queue, e.2 ≠ [] ∧ e.2.head? = some a ∧
        e.2.getLast? = some e.1 ∧ e.2.Nodup ∧
        List.Chain' (fun u v => v ∈ adjOf g u) e.2 ∧
        ∀ x ∈ e.2, x ∈ visited) →
      bfsLoop g endId fuel queue visited = some p →
      p.head? = some a ∧ p.getLast? = some endId ∧ p.Nodup ∧
        List.Chain' (fun u v => v ∈ adjOf g u) p := by
  intro fuel
  induction fuel with
  | zero =>
    intro queue visited p _ h
    rw [bfsLoop] at h
    exact absurd h (by simp)
  | succ fuel ih =>
    intro queue visited p hinv h
    cases queue with
    | nil =>
      rw [bfsLoop] at h
      exact absurd h (by simp)
    | cons e rest =>
      obtain ⟨nodeId, path⟩ := e
      rw [bfsLoop] at h
      by_cases hend : nodeId = endId
      · rw [if_pos hend] at h
        injection h with h
        subst h
        obtain ⟨hne, hhead, hlast, hnd, hch, _⟩ := hinv (nodeId, path) (by simp)
        refine ⟨hhead, ?_, hnd, hch⟩
        rw [hlast, hend]
      · rw [if_neg hend] at h
        refine ih _ _ p ?_ h
        intro e' he'
        rcases List.mem_append.mp he' with h1 | h1
        · obtain ⟨c1, c2, c3, c4, c5, c6⟩ := hinv e' (by simp [h1])
          exact ⟨c1, c2, c3, c4, c5,
            fun x hx => List.mem_append.mpr (Or.inl (c6 x hx))⟩
        · rw [List.mem_map] at h1
          obtain ⟨nb, hnb, rfl⟩ := h1
          have hnbf := hnb
          rw [List.mem_filter, decide_eq_true_eq] at hnbf
          obtain ⟨hnbadj, hnbvis⟩ := hnbf
          obtain ⟨c1, c2, c3, c4, c5, c6⟩ := hinv (nodeId, path) (by simp)
          have hnbpath : nb ∉ path := fun hc => hnbvis (c6 nb hc)
          refine ⟨by simp, ?_, List.getLast?_concat _, ?_, ?_, ?_⟩
          · cases path with
            | nil => exact absurd rfl c1
            | cons p0 ps => simpa using c2
          · rw [List.nodup_append]
            exact ⟨c4, List.nodup_singleton _,
              List.disjoint_singleton.mpr hnbpath⟩
          · rw [List.chain'_append]
            refine ⟨c5, List.chain'_singleton _, ?_⟩
            intro x hx y hy
            simp only [List.head?_cons, Option.mem_def, Option.some.injEq] at hy
            rw [c3] at hx
            simp only [Option.mem_def, Option.some.injEq] at hx
            subst hx
            subst hy
            exact hnbadj
          · intro x hx
            rcases List.mem_append.mp hx with hx1 | hx2
            · exact List.mem_append.mpr (Or.inl (c6 x hx1))
            · simp only [List.mem_singleton] at hx2
              subst hx2
              exact List.mem_append.mpr (Or.inr hnb)

theorem bfsLoop_complete (m : MindMap) (endId : String) :
    ∀ (fuel : Nat) (queue : List (String × List String))
      (visited : List String),
      visited.Nodup →
      (∀ v ∈ visited, v ∈ idListSpec m) →
      (∀ e ∈ queue, e.1 ∈ visited) →
      (∀ v ∈ visited, (∃ e ∈ queue, e.1 = v) ∨
        ∀ nb ∈ adjOf (buildGraph m) v, nb ∈ visited) →
      (endId ∈ visited → ∃ e ∈ queue, e.1 = endId) →
      queue.length + ((idListSpec m).length - visited.length) < fuel →
      bfsLoop (buildGraph m) endId fuel queue visited = none →
      ∃ V : List String, (∀ x ∈ visited, x ∈ V) ∧ endId ∉ V ∧
        ∀ v ∈ V, ∀ nb ∈ adjOf (buildGraph m) v, nb ∈ V := by
  intro fuel
  induction fuel with
  | zero =>
    intro queue visited _ _ _ _ _ hfuel _
    omega
  | succ fuel ih =>
    intro queue visited hndv hvsub hqv hclosed hendq hfuel hnone
    cases queue with
    | nil =>
      refine ⟨visited, fun x hx => hx, ?_, ?_⟩
      · intro hc
        obtain ⟨e, he, _⟩ := hendq hc
        simp at he
      · intro v hv
        rcases hclosed v hv with ⟨e, he, _⟩ | hcl
        · simp at he
        · exact hcl
    | cons e rest =>
      obtain ⟨nodeId, path⟩ := e
      rw [bfsLoop] at hnone
      by_cases hend : nodeId = endId
      · rw [if_pos hend] at hnone
        exact absurd hnone (by simp)
      · rw [if_neg hend] at hnone
        have hfreshsub : ∀ x ∈ (adjOf (buildGraph m) nodeId).filter
            (fun nb => decide (nb ∉ visited)), x ∈ idListSpec m := by
          intro x hx
          rw [List.mem_filter] at hx
          exact adjOf_subset_idList m nodeId x hx.1
        have hfreshnot : ∀ x ∈ (adjOf (buildGraph m) nodeId).filter
            (fun nb => decide (nb ∉ visited)), x ∉ visited := by
          intro x hx
          rw [List.mem_filter, decide_eq_true_eq] at hx
          exact hx.2
        have hndv' : (visited ++ (adjOf (buildGraph m) nodeId).filter
            (fun nb => decide (nb ∉ visited))).Nodup := by
          rw [List.nodup_append]
          refine ⟨hndv, (adjOf_nodup m nodeId).filter _, ?_⟩
          intro x hx hxf
          exact hfreshnot x hxf hx
        have hsub' : ∀ v ∈ visited ++ (adjOf (buildGraph m) nodeId).filter
            (fun nb => decide (nb ∉ visited)), v ∈ idListSpec m := by
          intro v hv
          rcases List.mem_append.mp hv with h1 | h1
          · exact hvsub v h1
          · exact hfreshsub v h1
        have hlen' : (visited ++ (adjOf (buildGraph m) nodeId).filter
            (fun nb => decide (nb ∉ visited))).length ≤
            (idListSpec m).length :=
          nodup_length_le_of_subset _ _ hndv' hsub'
        have hq' : ∀ e' ∈ rest ++ ((adjOf (buildGraph m) nodeId).filter
            (fun nb => decide (nb ∉ visited))).map
              (fun nb => (nb, path ++ [nb])),
            e'.1 ∈ visited ++ (adjOf (buildGraph m) nodeId).filter
              (fun nb => decide (nb ∉ visited)) := by
          intro e' he'
          rcases List.mem_append.mp he' with h1 | h1
          · exact List.mem_append.mpr (Or.inl (hqv e' (by simp [h1])))
          · rw [List.mem_map] at h1
            obtain ⟨nb, hnb, rfl⟩ := h1
            exact List.mem_append.mpr (Or.inr hnb)
        have hcl' : ∀ v ∈ visited ++ (adjOf (buildGraph m) nodeId).filter
            (fun nb => decide (nb ∉ visited)),
            (∃ e' ∈ rest ++ ((adjOf (buildGraph m) nodeId).filter
              (fun nb => decide (nb ∉ visited))).map
                (fun nb => (nb, path ++ [nb])), e'.1 = v) ∨
            ∀ nb ∈ adjOf (buildGraph m) v,
              nb ∈ visited ++ (adjOf (buildGraph m) nodeId).filter
                (fun nb => decide (nb ∉ visited)) := by
          intro v hv
          rcases List.mem_append.mp hv with h1 | h1
          · rcases hclosed v h1 with ⟨e', he', heq⟩ | hcl
            · rcases List.mem_cons.mp he' with h2 | h2
              · right
                intro nb hnbadj
                by_cases hnbv : nb ∈ visited
                · exact List.mem_append.mpr (Or.inl hnbv)
                · refine List.mem_append.mpr (Or.inr ?_)
                  rw [List.mem_filter, decide_eq_true_eq]
                  rw [h2] at heq
                  simp only at heq
                  rw [← heq] at hnbadj
                  exact ⟨hnbadj, hnbv⟩
              · left
                exact ⟨e', List.mem_append.mpr (Or.inl h2), heq⟩
            · right
              intro nb hnb
              exact List.mem_append.mpr (Or.inl (hcl nb hnb))
          · left
            refine ⟨(v, path ++ [v]), ?_, rfl⟩
            refine List.mem_append.mpr (Or.inr ?_)
            rw [List.mem_map]
            exact ⟨v, h1, rfl⟩
        have hend' : endId ∈ visited ++ (adjOf (buildGraph m) nodeId).filter
            (fun nb => decide (nb ∉ visited)) →
            ∃ e' ∈ rest ++ ((adjOf (buildGraph m) nodeId).filter
              (fun nb => decide (nb ∉ visited))).map
                (fun nb => (nb, path ++ [nb])), e'.1 = endId := by
          intro hendv
          rcases List.mem_append.mp hendv with h1 | h1
          · obtain ⟨e', he', heq⟩ := hendq h1
            rcases List.mem_cons.mp he' with h2 | h2
            · exfalso
              rw [h2] at heq
              simp only at heq
              exact hend heq
            · exact ⟨e', List.mem_append.mpr (Or.inl h2), heq⟩
          · refine ⟨(endId, path ++ [endId]), ?_, rfl⟩
            refine List.mem_append.mpr (Or.inr ?_)
            rw [List.mem_map]
            exact ⟨endId, h1, rfl⟩
        have hfl' : (rest ++ ((adjOf (buildGraph m) nodeId).filter
            (fun nb => decide (nb ∉ visited))).map
              (fun nb => (nb, path ++ [nb]))).length +
            ((idListSpec m).length -
              (visited ++ (adjOf (buildGraph m) nodeId).filter
                (fun nb => decide (nb ∉ visited))).length) < fuel := by
          have hvle : visited.length ≤ (idListSpec m).length :=
            nodup_length_le_of_subset _ _ hndv hvsub
          rw [List.length_append, List.length_map, List.length_append]
          rw [List.length_append] at hlen'
          simp only [List.length_cons] at hfuel
          omega
        obtain ⟨V, hV1, hV2, hV3⟩ :=
          ih _ _ hndv' hsub' hq' hcl' hend' hfl' hnone
        exact ⟨V, fun x hx => hV1 x (List.mem_append.mpr (Or.inl hx)),
          hV2, hV3⟩

theorem closed_contains_all (m : MindMap) (V : List String)
    (hclosed : ∀ v ∈ V, ∀ nb ∈ adjOf (buildGraph m) v, nb ∈ V)
    (p0 : GPos) (h0 : PosOk m p0) (hin : posId p0 ∈ V) :
    ∀ p, PosOk m p → posId p ∈ V := by
  have hcentral : posId GPos.central ∈ V := by
    cases p0 with
    | central => exact hin
    | branch i =>
      have hstep := hclosed _ hin
      rw [adjOf_posId m _ h0] at hstep
      apply hstep
      rw [List.mem_map]
      exact ⟨.central, by simp [posAdj], rfl⟩
    | sub i j =>
      have hb : posId (GPos.branch i) ∈ V := by
        have hstep := hclosed _ hin
        rw [adjOf_posId m _ h0] at hstep
        apply hstep
        rw [List.mem_map]
        exact ⟨.branch i, by simp [posAdj], rfl⟩
      have hstep := hclosed _ hb
      rw [adjOf_posId m _ (show PosOk m (GPos.branch i) from h0.1)] at hstep
      apply hstep
      rw [List.mem_map]
      exact ⟨.central, by simp [posAdj], rfl⟩
  intro p hp
  cases p with
  | central => exact hcentral
  | branch i =>
    have hstep := hclosed _ hcentral
    rw [adjOf_posId m GPos.central (by trivial)] at hstep
    apply hstep
    rw [List.mem_map]
    refine ⟨.branch i, ?_, rfl⟩
    simp only [posAdj, List.mem_map, List.mem_range]
    exact ⟨i, hp, rfl⟩
  | sub i j =>
    have hb : posId (GPos.branch i) ∈ V := by
      have hstep := hclosed _ hcentral
      rw [adjOf_posId m GPos.central (by trivial)] at hstep
      apply hstep
      rw [List.mem_map]
      refine ⟨.branch i, ?_, rfl⟩
      simp only [posAdj, List.mem_map, List.mem_range]
      exact ⟨i, hp.1, rfl⟩
    have hstep := hclosed _ hb
    rw [adjOf_posId m _ (show PosOk m (GPos.branch i) from hp.1)] at hstep
    apply hstep
    rw [List.mem_map]
    refine ⟨.sub i j, ?_, rfl⟩
    simp only [posAdj, List.mem_cons, List.mem_map, List.mem_range]
    right
    exact ⟨j, hp.2, rfl⟩

/-! ## Uniqueness of simple paths between present ids, and C5 -/

theorem lift_path (m : MindMap) :
    ∀ (q : List String) (pa : GPos), PosOk m pa →
      q.head? = some (posId pa) →
      List.Chain' (fun u v => v ∈ adjOf (buildGraph m) u) q →
      ∃ P : List GPos, q = P.map posId ∧ P.head? = some pa ∧
        (∀ p ∈ P, PosOk m p) ∧
        List.Chain' (fun p p' => p' ∈ posAdj m p) P := by
  intro q
  induction q with
  | nil => intro pa _ hh _; simp at hh
  | cons x t ih =>
    intro pa hok hh hch
    simp only [List.head?_cons, Option.some.injEq] at hh
    subst hh
    cases t with
    | nil =>
      refine ⟨[pa], rfl, rfl, ?_, List.chain'_singleton _⟩
      intro p hp
      rw [List.mem_singleton] at hp
      rw [hp]
      exact hok
    | cons y t' =>
      have hyadj : y ∈ adjOf (buildGraph m) (posId pa) :=
        (List.chain'_cons.mp hch).1
      have hch' : List.Chain' (fun u v => v ∈ adjOf (buildGraph m) u)
          (y :: t') := (List.chain'_cons.mp hch).2
      rw [adjOf_posId m pa hok, List.mem_map] at hyadj
      obtain ⟨pb, hpb, rfl⟩ := hyadj
      have hokb : PosOk m pb := posAdj_ok m hok hpb
      obtain ⟨P, hPeq, hPh, hPok, hPch⟩ := ih pb hokb rfl hch'
      cases P with
      | nil => simp at hPeq
      | cons z R =>
        simp only [List.head?_cons, Option.some.injEq] at hPh
        subst hPh
        refine ⟨pa :: z :: R, ?_, rfl, ?_, ?_⟩
        · rw [List.map_cons, ← hPeq]
        · intro p hp
          rcases List.mem_cons.mp hp with h1 | h1
          · rw [h1]; exact hok
          · exact hPok p h1
        · rw [List.chain'_cons]
          exact ⟨hpb, hPch⟩

theorem chain_all_ok (m : MindMap) :
    ∀ (P : List GPos) (pa : GPos), P.head? = some pa → PosOk m pa →
      List.Chain' (fun p p' => p' ∈ posAdj m p) P →
      ∀ p ∈ P, PosOk m p := by
  intro P
  induction P with
  | nil => intro pa hh _ _; simp at hh
  | cons x t ih =>
    intro pa hh hok hch p hp
    simp only [List.head?_cons, Option.some.injEq] at hh
    have hokx : PosOk m x := by rw [hh]; exact hok
    rcases List.mem_cons.mp hp with h1 | h1
    · rw [h1]; exact hokx
    · cases t with
      | nil => simp at h1
      | cons y t' =>
        have hy : y ∈ posAdj m x := (List.chain'_cons.mp hch).1
        exact ih y rfl (posAdj_ok m hokx hy)
          (List.chain'_cons.mp hch).2 p h1

theorem chain_map_posId (m : MindMap) :
    ∀ P : List GPos, (∀ p ∈ P, PosOk m p) →
      List.Chain' (fun p p' => p' ∈ posAdj m p) P →
      List.Chain' (fun u v => v ∈ adjOf (buildGraph m) u) (P.map posId) := by
  intro P
  induction P with
  | nil => intro _ _; simp
  | cons p t ih =>
    intro hok hch
    cases t with
    | nil => simp
    | cons p' t' =>
      rw [List.map_cons, List.map_cons, List.chain'_cons]
      obtain ⟨h1, h2⟩ := List.chain'_cons.mp hch
      refine ⟨?_, ?_⟩
      · rw [adjOf_posId m p (hok p (by simp))]
        exact List.mem_map.mpr ⟨p', h1, rfl⟩
      · rw [← List.map_cons]
        exact ih (fun x hx => hok x (List.mem_cons_of_mem _ hx)) h2

theorem string_path_unique (m : MindMap) (pa pb : GPos)
    (ha : PosOk m pa) (hb : PosOk m pb) (q : List String)
    (hh : q.head? = some (posId pa)) (hl : q.getLast? = some (posId pb))
    (hnd : q.Nodup)
    (hch : List.Chain' (fun u v => v ∈ adjOf (buildGraph m) u) q) :
    q = (canonPos pa pb).map posId := by
  obtain ⟨P, rfl, hPh, hPok, hPch⟩ := lift_path m q pa ha hh hch
  have hPnd : P.Nodup := hnd.of_map posId
  have hPl : P.getLast? = some pb := by
    rw [List.getLast?_map] at hl
    cases hg : P.getLast? with
    | none => rw [hg] at hl; simp at hl
    | some z =>
      rw [hg] at hl
      simp only [Option.map_some', Option.some.injEq] at hl
      rw [posId_inj hl]
  rw [pos_path_unique m P pa pb hPh hPl hPnd hPch]

theorem findShortestPath_canon (m : MindMap) (pa pb : GPos)
    (ha : PosOk m pa) (hb : PosOk m pb) :
    findShortestPath (buildGraph m) (posId pa) (posId pb) =
      some (mkPath (buildGraph m) ((canonPos pa pb).map posId)) := by
  have hna : hasNode (buildGraph m) (posId pa) = true :=
    (hasNode_iff_pos m _).mpr ⟨pa, ha, rfl⟩
  have hnb : hasNode (buildGraph m) (posId pb) = true :=
    (hasNode_iff_pos m _).mpr ⟨pb, hb, rfl⟩
  have hN : (buildGraph m).nodes.length = (idListSpec m).length := by
    rw [← nodesSpec_keys m, List.length_map]
    simp only [buildGraph_eq]
  have hNpos : 1 ≤ (idListSpec m).length := by
    rw [idListSpec, List.length_cons]
    omega
  simp only [findShortestPath]
  rw [if_neg (by simp [hna, hnb])]
  cases hres : bfsLoop (buildGraph m) (posId pb)
      ((buildGraph m).nodes.length + 1)
      [(posId pa, [posId pa])] [posId pa] with
  | none =>
    exfalso
    obtain ⟨V, hV1, hV2, hV3⟩ := bfsLoop_complete m (posId pb)
      ((buildGraph m).nodes.length + 1) [(posId pa, [posId pa])] [posId pa]
      (List.nodup_singleton _)
      (by
        intro v hv
        rw [List.mem_singleton] at hv
        rw [hv, mem_idListSpec_iff]
        exact ⟨pa, ha, rfl⟩)
      (by
        intro e he
        rw [List.mem_singleton] at he
        rw [he]
        exact List.mem_singleton.mpr rfl)
      (by
        intro v hv
        left
        refine ⟨(posId pa, [posId pa]), List.mem_singleton.mpr rfl, ?_⟩
        rw [List.mem_singleton] at hv
        exact hv.symm)
      (by
        intro hmemb
        refine ⟨(posId pa, [posId pa]), List.mem_singleton.mpr rfl, ?_⟩
        rw [List.mem_singleton] at hmemb
        exact hmemb.symm)
      (by
        simp only [List.length_singleton]
        omega)
      hres
    exact hV2 (closed_contains_all m V hV3 pa ha
      (hV1 _ (List.mem_singleton.mpr rfl)) pb hb)
  | some q =>
    obtain ⟨hh, hl, hnd, hch⟩ := bfsLoop_sound (buildGraph m) (posId pb)
      (posId pa) ((buildGraph m).nodes.length + 1)
      [(posId pa, [posId pa])] [posId pa] q
      (by
        intro e he
        rw [List.mem_singleton] at he
        rw [he]
        refine ⟨by simp, rfl, by simp, List.nodup_singleton _,
          List.chain'_singleton _, ?_⟩
        intro x hx
        exact hx)
      hres
    rw [string_path_unique m pa pb ha hb q hh hl hnd hch]
    rfl

theorem eq_singleton_of_nodup {α : Type} (l : List α) (x : α)
    (hnd : l.Nodup) (hm : x ∈ l) (hall : ∀ y ∈ l, y = x) : l = [x] := by
  cases l with
  | nil => simp at hm
  | cons y t =>
    have hy : y = x := hall y (by simp)
    subst hy
    have ht : t = [] := by
      cases t with
      | nil => rfl
      | cons z t' =>
        have hz : z = y := hall z (by simp)
        rw [List.nodup_cons] at hnd
        exact absurd (List.mem_cons.mpr (Or.inl hz.symm)) hnd.1
    rw [ht]

theorem findAllPaths_canon (m : MindMap) (pa pb : GPos) (d : Nat)
    (hd : 6 ≤ d) (ha : PosOk m pa) (hb : PosOk m pb) :
    findAllPaths (buildGraph m) (posId pa) (posId pb) d =
      [mkPath (buildGraph m) ((canonPos pa pb).map posId)] := by
  have hna : hasNode (buildGraph m) (posId pa) = true :=
    (hasNode_iff_pos m _).mpr ⟨pa, ha, rfl⟩
  have hnb : hasNode (buildGraph m) (posId pb) = true :=
    (hasNode_iff_pos m _).mpr ⟨pb, hb, rfl⟩
  obtain ⟨hch0, hcl0, hcnd, hcch, hclen⟩ := canonPos_sound m pa pb ha hb
  have hallok : ∀ p ∈ canonPos pa pb, PosOk m p :=
    chain_all_ok m (canonPos pa pb) pa hch0 ha hcch
  have hLl : ((canonPos pa pb).map posId).getLast? = some (posId pb) := by
    rw [List.getLast?_map, hcl0]
    rfl
  have hLnd : ((canonPos pa pb).map posId).Nodup :=
    hcnd.map fun x y h => posId_inj h
  have hLch : List.Chain' (fun u v => v ∈ adjOf (buildGraph m) u)
      ((canonPos pa pb).map posId) :=
    chain_map_posId m (canonPos pa pb) hallok hcch
  have hLext : ∃ ext, (canonPos pa pb).map posId = [posId pa] ++ ext := by
    refine ⟨((canonPos pa pb).map posId).tail, ?_⟩
    rw [List.singleton_append]
    refine (List.cons_head?_tail ?_).symm
    rw [List.head?_map, hch0]
    rfl
  have hLlen : ((canonPos pa pb).map posId).length - 1 ≤ d := by
    rw [List.length_map]
    omega
  obtain ⟨hmem, hnd⟩ := dfsAux_spec (buildGraph m) (posId pb) d
    (adjOf_nodup m) (d + 1) (posId pa) [posId pa] [] 0
    (by omega) (by simp) (by simp) (by simp) (List.nodup_singleton _)
    (List.chain'_singleton _) rfl
  have hLmem : (canonPos pa pb).map posId ∈
      dfsAux (buildGraph m) (posId pb) d (d + 1) (posId pa) [posId pa] [] 0 :=
    (hmem _).mpr ⟨hLext, hLnd, hLch, hLl, hLlen⟩
  have hall : ∀ q ∈ dfsAux (buildGraph m) (posId pb) d (d + 1)
      (posId pa) [posId pa] [] 0, q = (canonPos pa pb).map posId := by
    intro q hq
    obtain ⟨⟨ext, rfl⟩, hqnd, hqch, hql, _⟩ := (hmem _).mp hq
    exact string_path_unique m pa pb ha hb _ rfl hql hqnd hqch
  have hD : dfsAux (buildGraph m) (posId pb) d (d + 1)
      (posId pa) [posId pa] [] 0 = [(canonPos pa pb).map posId] :=
    eq_singleton_of_nodup _ _ hnd hLmem hall
  simp only [findAllPaths]
  rw [if_neg (by simp [hna, hnb]), hD]
  simp

/-- C5: on a graph built from a mind map, for any two present ids and any
depth bound of at least 6, `findAllPaths` returns exactly one path, and it is
the very path `findShortestPath` returns: both are the unique simple path in
the tree, packaged by `mkPath`. -/
theorem findAllPaths_shortest_agree (m : MindMap) (a b : String) (d : Nat)
    (hd : 6 ≤ d) (ha : hasNode (buildGraph m) a = true)
    (hb : hasNode (buildGraph m) b = true) :
    ∃ p : Path, findShortestPath (buildGraph m) a b = some p ∧
      findAllPaths (buildGraph m) a b d = [p] := by
  obtain ⟨pa, hoka, rfl⟩ := (hasNode_iff_pos m a).mp ha
  obtain ⟨pb, hokb, rfl⟩ := (hasNode_iff_pos m b).mp hb
  exact ⟨mkPath (buildGraph m) ((canonPos pa pb).map posId),
    findShortestPath_canon m pa pb hoka hokb,
    findAllPaths_canon m pa pb d hd hoka hokb⟩

/-- C5 witness: on the example graph, between `branch-0-sub-1` and
`branch-1-sub-0` with depth bound 6. -/
theorem findAllPaths_shortest_witness :
    6 ≤ 6 ∧
    hasNode (buildGraph guitarMindMap) "branch-0-sub-1" = true ∧
    hasNode (buildGraph guitarMindMap) "branch-1-sub-0" = true ∧
    ∃ p : Path, findShortestPath (buildGraph guitarMindMap) "branch-0-sub-1"
        "branch-1-sub-0" = some p ∧
      findAllPaths (buildGraph guitarMindMap) "branch-0-sub-1"
        "branch-1-sub-0" 6 = [p] :=
  ⟨le_refl 6, by decide, by decide,
    findAllPaths_shortest_agree guitarMindMap "branch-0-sub-1"
      "branch-1-sub-0" 6 (le_refl 6) (by decide) (by decide)⟩

end MindMapApp
